import Mathlib

/-!
Verification of the git-daemon core against its natural-language
specification.  Each section shallowly embeds one component of the
TypeScript source (`src/workspace.ts`, `src/approvals.ts`, `src/tokens.ts`,
`src/pairing.ts`, `src/jobs.ts`, `src/deps.ts`, `src/security.ts`,
`src/app.ts`) as executable Lean definitions, and the theorems at the end
settle the spec's claims about those components.
-/

namespace GitDaemon

/-! ## POSIX path model

Absolute paths are lists of components (so `[]` is `/`).  `pathResolve`
mirrors Node's `path.resolve(base, s)` for an absolute `base`:
an absolute `s` wins, `.` is dropped, `..` pops one component (and is a
no-op at the root), and empty components are ignored. -/

/-- An absolute, normalised path: its components below `/`. -/
abbrev MPath := List String

/-- Whether `s` starts with the prefix `pre` (character-wise). -/
def strStartsWith (s pre : String) : Bool :=
  pre.data.isPrefixOf s.data

/-- Split a character list on `/`, dropping empty components; `acc` holds
the current component reversed. -/
def splitCompsAux : List Char → List Char → List String
  | [], acc => if acc.isEmpty then [] else [String.mk acc.reverse]
  | c :: cs, acc =>
    if c = '/' then
      if acc.isEmpty then splitCompsAux cs []
      else String.mk acc.reverse :: splitCompsAux cs []
    else splitCompsAux cs (c :: acc)

/-- Split a path string on `/`, dropping empty components. -/
def splitComponents (s : String) : List String :=
  splitCompsAux s.data []

/-- One step of normalisation: `.` is skipped, `..` pops, a name appends. -/
def applyComp (acc : MPath) (c : String) : MPath :=
  if c = "." then acc
  else if c = ".." then acc.dropLast
  else acc ++ [c]

/-- Fold path components over a base path, resolving `.` and `..`. -/
def normalizeComps (base : MPath) (cs : List String) : MPath :=
  cs.foldl applyComp base

/-- `path.resolve(base, s)` for an absolute base path. -/
def pathResolve (base : MPath) (s : String) : MPath :=
  if strStartsWith s "/" then normalizeComps [] (splitComponents s)
  else normalizeComps base (splitComponents s)

/-- Render a path back to a string (`[]` is `/`). -/
def joinPath (p : MPath) : String :=
  "/" ++ String.intercalate "/" p

/-- Drop the longest common prefix of two component lists. -/
def dropCommon : MPath → MPath → MPath × MPath
  | a :: as, b :: bs => if a = b then dropCommon as bs else (a :: as, b :: bs)
  | as, bs => (as, bs)

/-- `path.relative(fromP, toP)` for two absolute normalised paths, rendered
as the string Node produces (`..` segments then the remaining suffix). -/
def pathRelative (fromP toP : MPath) : String :=
  let rest := dropCommon fromP toP
  String.intercalate "/" (List.replicate rest.1.length ".." ++ rest.2)

/-- `isInside` from `src/workspace.ts`: the relative path from `root` to
`candidate` is empty, or neither starts with `..` nor is absolute. -/
def isInside (root candidate : MPath) : Bool :=
  let relative := pathRelative root candidate
  if relative = "" then true
  else !(strStartsWith relative "..") && !(strStartsWith relative "/")

/-! ## Filesystem model with symlinks

A finite map from absolute paths to nodes.  Symlink targets are absolute
normalised paths.  `realpath` follows every symlink component with fuel;
running out of fuel models `ELOOP`. -/

/-- A filesystem node: a directory, a regular file, or a symlink whose
target is an absolute normalised path. -/
inductive FsNode
  | dir
  | file
  | symlink (target : MPath)
deriving DecidableEq, Repr

/-- A finite filesystem: the paths that exist and their nodes.  The root
directory `/` always exists implicitly. -/
structure FS where
  nodes : List (MPath × FsNode)
deriving Repr

/-- Look up the node stored at a path. -/
def FS.lookup (fs : FS) (p : MPath) : Option FsNode :=
  (fs.nodes.find? (fun e => e.1 = p)).map (·.2)

/-- Errors of the modelled `fs.realpath`. -/
inductive RPErr
  | enoent
  | other
deriving DecidableEq, Repr

/-- Resolve the components `rest` under the already-canonical `acc`,
following symlinks, with `fuel` bounding the total work. -/
def realpathAux (fs : FS) : Nat → MPath → List String → Except RPErr MPath
  | 0, _, _ => .error .other
  | _ + 1, acc, [] => .ok acc
  | fuel + 1, acc, c :: rest =>
    match fs.lookup (acc ++ [c]) with
    | none => .error .enoent
    | some .dir => realpathAux fs fuel (acc ++ [c]) rest
    | some .file =>
      if rest = [] then .ok (acc ++ [c]) else .error .other
    | some (.symlink target) =>
      match realpathAux fs fuel [] target with
      | .error e => .error e
      | .ok t => realpathAux fs fuel t rest

/-- Fuel that comfortably bounds symlink chains in a finite filesystem. -/
def realpathFuel (fs : FS) (p : MPath) : Nat :=
  (fs.nodes.length + 2) * (fs.nodes.length + p.length + 2) + p.length + 2

/-- The modelled `fs.realpath` on an absolute normalised path. -/
def realpath (fs : FS) (p : MPath) : Except RPErr MPath :=
  realpathAux fs (realpathFuel fs p) [] p

/-! ## Workspace sandbox (`src/workspace.ts`) -/

/-- Errors `resolveInsideWorkspace` can surface: the typed
`path_outside_workspace` API error, the `MissingPathError`, or a rethrown
filesystem error. -/
inductive WsError
  | pathOutsideWorkspace
  | missingPath
  | fsError
deriving DecidableEq, Repr

/-- HTTP status of the typed errors involved (`src/errors.ts`):
`path_outside_workspace` is 409, a missing path is remapped per route to a
404, and a rethrown filesystem error surfaces as 500. -/
def wsErrorStatus : WsError → Nat
  | .pathOutsideWorkspace => 409
  | .missingPath => 404
  | .fsError => 500

def MAX_PATH_LENGTH : Nat := 4096

/-- `realpathSafe` from `src/workspace.ts`: `ENOENT` becomes `none`, any
other filesystem error is rethrown. -/
def realpathSafe (fs : FS) (p : MPath) : Except WsError (Option MPath) :=
  match realpath fs p with
  | .ok r => .ok (some r)
  | .error .enoent => .ok none
  | .error .other => .error .fsError

/-- `resolveInsideWorkspace` from `src/workspace.ts`: canonicalise the
root, resolve the candidate against it, and require the canonical result
(or, for a missing path with `allowMissing`, its parent's canonical form)
to sit inside the canonical root. -/
def resolveInsideWorkspace (fs : FS) (workspaceRoot candidate : String)
    (allowMissing : Bool) : Except WsError MPath :=
  if candidate.length > MAX_PATH_LENGTH then .error .pathOutsideWorkspace
  else
    match realpath fs (pathResolve [] workspaceRoot) with
    | .error _ => .error .fsError
    | .ok rootReal =>
      let resolved := pathResolve rootReal candidate
      if !(isInside rootReal resolved) then .error .pathOutsideWorkspace
      else
        match realpathSafe fs resolved with
        | .error e => .error e
        | .ok (some realResolved) =>
          if !(isInside rootReal realResolved) then .error .pathOutsideWorkspace
          else .ok realResolved
        | .ok none =>
          if !allowMissing then .error .missingPath
          else
            let parent := resolved.dropLast
            match realpathSafe fs parent with
            | .error e => .error e
            | .ok (some parentReal) =>
              if !(isInside rootReal parentReal) then .error .pathOutsideWorkspace
              else .ok resolved
            | .ok none => .ok resolved

/-! ## Approval policy (`src/approvals.ts`)

`hasApproval` is embedded from the current version of the module (the one
whose wildcard handling matches `upsertOriginApproval` in `src/app.ts` and
the persisted `ApprovalEntry` type, whose `repoPath` may be `null`). -/

/-- A capability that requires per-origin approval. -/
inductive Capability
  | openTerminal
  | openVscode
  | depsInstall
deriving DecidableEq, Repr

/-- A persisted approval entry; `repoPath = none` models a `null` field. -/
structure ApprovalEntry where
  origin : String
  repoPath : Option String
  capabilities : List Capability
  approvedAt : String
deriving DecidableEq, Repr

/-- The `approvals` part of the persisted config. -/
structure ApprovalsConfig where
  entries : List ApprovalEntry
deriving Repr

/-- `path.isAbsolute` on POSIX: the path starts with `/`. -/
def isAbsolutePath (s : String) : Bool := strStartsWith s "/"

/-- `path.resolve(base, s)` on strings, with relative bases resolved from
`/` (the daemon's workspace root is configured absolute). -/
def pathResolveStr (base s : String) : String :=
  joinPath (pathResolve (pathResolve [] base) s)

/-- Whether one approval entry grants `capability` on `repoPath` for
`origin`: same origin and capability, and a `null`/`"*"` (wildcard)
`repoPath`, an exact match, or a relative `repoPath` that resolved against
the workspace root equals the argument.  JavaScript string truthiness makes
an empty workspace root or entry path fall through to `false`. -/
def entryGrants (workspaceRoot : Option String) (origin repoPath : String)
    (capability : Capability) (entry : ApprovalEntry) : Bool :=
  if entry.origin ≠ origin || !(entry.capabilities.contains capability) then
    false
  else if entry.repoPath = none || entry.repoPath = some "*" then true
  else if entry.repoPath = some repoPath then true
  else
    match workspaceRoot, entry.repoPath with
    | some ws, some rp =>
      if ws ≠ "" && rp ≠ "" && !(isAbsolutePath rp) then
        pathResolveStr ws rp = repoPath
      else false
    | _, _ => false

/-- `hasApproval` from `src/approvals.ts`. -/
def hasApproval (config : ApprovalsConfig) (origin repoPath : String)
    (capability : Capability) (workspaceRoot : Option String) : Bool :=
  config.entries.any (entryGrants workspaceRoot origin repoPath capability)

/-! ## Token store (`src/tokens.ts`)

Randomness (token and salt bytes) and the scrypt derivation are passed in
as arguments; time is milliseconds.  A record's `expiresAt` is persisted as
a string and read back through `Date.parse`, so it is modelled as
`Option Int`: `none` stands for a string whose parse is `NaN`. -/

/-- A persisted token record.  `tokenHash` holds the derived bytes (the
source stores them base64url-encoded and decodes before comparing). -/
structure TokenEntry where
  origin : String
  tokenHash : List Nat
  salt : String
  createdAt : Int
  expiresAt : Option Int
deriving DecidableEq, Repr

/-- The in-memory token store: the parsed `tokens.json` entries. -/
structure TokenStore where
  entries : List TokenEntry
deriving DecidableEq, Repr

/-- `pruneExpired`: keep an entry when its `expiresAt` does not parse
(`Number.isNaN`) or parses to a time strictly after `now`. -/
def pruneExpired (now : Int) (s : TokenStore) : TokenStore :=
  { entries :=
      s.entries.filter (fun e =>
        match e.expiresAt with
        | none => true
        | some t => t > now) }

/-- Run `pruneExpired` at each time of `times` in turn. -/
def prunePasses (times : List Int) (s : TokenStore) : TokenStore :=
  times.foldl (fun acc t => pruneExpired t acc) s

/-- `getActiveToken`: prune, then find the entry for the origin.  Returns
the pruned store together with the lookup result. -/
def getActiveToken (now : Int) (origin : String) (s : TokenStore) :
    TokenStore × Option TokenEntry :=
  let s' := pruneExpired now s
  (s', s'.entries.find? (fun e => e.origin = origin))

/-- `issueToken`: derive the hash from the fresh `token` and `salt`,
replace any record for the origin, and hand the plaintext back once.
Returns the new store, the plaintext and the expiry. -/
def issueToken (scrypt : String → String → List Nat) (now : Int)
    (origin : String) (ttlDays : Int) (token salt : String) (s : TokenStore) :
    TokenStore × String × Int :=
  let expiresAt := now + ttlDays * 24 * 60 * 60 * 1000
  let entry : TokenEntry :=
    { origin := origin
      tokenHash := scrypt token salt
      salt := salt
      createdAt := now
      expiresAt := some expiresAt }
  ({ entries := s.entries.filter (fun e => e.origin ≠ origin) ++ [entry] },
   token, expiresAt)

/-- `revokeToken`: drop the origin's record. -/
def revokeToken (origin : String) (s : TokenStore) : TokenStore :=
  { entries := s.entries.filter (fun e => e.origin ≠ origin) }

/-- `verifyToken`: prune, look up by origin, re-derive the hash with the
stored salt, compare lengths then contents (`timingSafeEqual`).  Returns
the pruned store and the verdict. -/
def verifyToken (scrypt : String → String → List Nat) (now : Int)
    (origin token : String) (s : TokenStore) : TokenStore × Bool :=
  let s' := pruneExpired now s
  match s'.entries.find? (fun e => e.origin = origin) with
  | none => (s', false)
  | some e =>
    let derived := scrypt token e.salt
    if e.tokenHash.length ≠ derived.length then (s', false)
    else (s', e.tokenHash = derived)

/-! ## Pairing manager (`src/pairing.ts`) -/

def PAIRING_TTL_MS : Int := 10 * 60 * 1000

/-- The volatile origin-to-code map of `PairingManager`. -/
structure PairState where
  codes : List (String × String × Int)
deriving DecidableEq, Repr

/-- `Map.get`: the entry stored for an origin. -/
def codesGet (m : List (String × String × Int)) (origin : String) :
    Option (String × Int) :=
  (m.find? (fun e => e.1 = origin)).map (·.2)

/-- `Map.set`: replace the entry stored for an origin. -/
def codesSet (m : List (String × String × Int)) (origin code : String)
    (expiresAt : Int) : List (String × String × Int) :=
  (origin, code, expiresAt) :: m.filter (fun e => e.1 ≠ origin)

/-- `Map.delete`: remove the entry stored for an origin. -/
def codesDelete (m : List (String × String × Int)) (origin : String) :
    List (String × String × Int) :=
  m.filter (fun e => e.1 ≠ origin)

/-- `PairingManager.start`: record the freshly generated `code` for the
origin with a ten-minute expiry and return it. -/
def pairStart (now : Int) (origin code : String) (p : PairState) :
    PairState × String × Int :=
  let expiresAt := now + PAIRING_TTL_MS
  ({ codes := codesSet p.codes origin code expiresAt }, code, expiresAt)

/-- `PairingManager.confirm`: reject an absent, mismatched or expired code;
otherwise consume the code and issue a token (whose fresh randomness is
`tok`/`salt`).  Returns the response with the updated states. -/
def pairConfirm (scrypt : String → String → List Nat) (now : Int)
    (origin code : String) (ttlDays : Int) (tok salt : String)
    (p : PairState) (s : TokenStore) :
    Option (String × Int) × PairState × TokenStore :=
  match codesGet p.codes origin with
  | none => (none, p, s)
  | some entry =>
    if entry.1 ≠ code || entry.2 < now then (none, p, s)
    else
      let p' : PairState := { codes := codesDelete p.codes origin }
      let issued := issueToken scrypt now origin ttlDays tok salt s
      (some (issued.2.1, issued.2.2), p', issued.1)

/-- The `POST /v1/pair` confirm step's handling of the manager's verdict
(`src/app.ts`): a `null` from `confirm` becomes an HTTP 422 error with
`errorCode` `internal_error`. -/
def pairConfirmRouteError (r : Option (String × Int)) :
    Option (Nat × String) :=
  match r with
  | none => some (422, "internal_error")
  | some _ => none

/-! ## Job manager (`src/jobs.ts`)

The manager runs on Node's single-threaded event loop, so its behaviour is
a sequence of atomic steps: an HTTP enqueue or cancel, a timeout timer
firing, a runner's promise resolving, or the runner emitting a log or
progress event through its context.  Jobs carry two pieces of bookkeeping
the source keeps implicitly: `started` (the runner promise was created) and
`resolved` (its `finally` ran). -/

def MAX_EVENTS : Nat := 2000

/-- The job state machine's states. -/
inductive JState
  | queued
  | running
  | done
  | error
  | cancelled
deriving DecidableEq, Repr

/-- A terminal job state. -/
def isTerminal : JState → Bool
  | .done => true
  | .error => true
  | .cancelled => true
  | _ => false

/-- The tagged event union pushed on a job's ring. -/
inductive JEvent
  | log (stream line : String)
  | progress (detail : String)
  | state (st : JState) (message : Option String)
deriving DecidableEq, Repr

/-- One job: id, state, cancellation flag, the runner bookkeeping, the
bounded event ring and the recorded error code.  `started`/`resolved`
track the runner promise; `timeoutPending` tracks a timeout callback that
has passed its state check and is suspended in `await job.cancel()`, its
continuation still to run. -/
structure MJob where
  id : Nat
  state : JState
  cancelRequested : Bool
  started : Bool
  resolved : Bool
  timeoutPending : Bool
  events : List JEvent
  errorCode : Option String
deriving DecidableEq, Repr

/-- `Job.emit`: push the event and drop the oldest past `MAX_EVENTS`. -/
def emitJob (j : MJob) (e : JEvent) : MJob :=
  let events := j.events ++ [e]
  { j with events := if events.length > MAX_EVENTS then events.tail else events }

/-- The manager's state: the concurrency cap, the `running` counter, the
FIFO queue of pending job ids, the job index, the bounded history ring and
the UUID supply. -/
structure JMState where
  maxConcurrent : Nat
  running : Nat
  queue : List Nat
  jobs : List MJob
  history : List Nat
  nextId : Nat
deriving Repr

/-- A fresh manager (`new JobManager(maxConcurrent, …)`). -/
def initJM (maxConcurrent : Nat) : JMState :=
  { maxConcurrent := maxConcurrent
    running := 0
    queue := []
    jobs := []
    history := []
    nextId := 0 }

/-- Replace the first job carrying `id` (the map entry the source mutates
in place). -/
def updateFirst (js : List MJob) (id : Nat) (f : MJob → MJob) : List MJob :=
  match js with
  | [] => []
  | j :: rest =>
    if j.id = id then f j :: rest else j :: updateFirst rest id f

/-- The opening of `runJob`: mark the job running and emit the `running`
state event.  Starting the runner creates a fresh unresolved promise. -/
def startJob (j : MJob) : MJob :=
  emitJob { j with state := .running, started := true, resolved := false }
    (.state .running none)

/-- `runJob`'s synchronous prefix on the manager: bump `running` and start
the dequeued job. -/
def runJobStart (s : JMState) (id : Nat) : JMState :=
  { s with running := s.running + 1, jobs := updateFirst s.jobs id startJob }

/-- `drain`: while a slot is free and the queue is non-empty, pop the queue
head and start it.  The fuel is the queue length, which bounds the loop. -/
def drainAux : Nat → JMState → JMState
  | 0, s => s
  | fuel + 1, s =>
    if s.running < s.maxConcurrent then
      match s.queue with
      | [] => s
      | id :: rest => drainAux fuel (runJobStart { s with queue := rest } id)
    else s

/-- `drain` with its loop bound. -/
def drain (s : JMState) : JMState :=
  drainAux s.queue.length s

/-- `track`: push on the history ring, shifting past 100 snapshots. -/
def trackJob (history : List Nat) (id : Nat) : List Nat :=
  let h := history ++ [id]
  if h.length > 100 then h.tail else h

/-- `enqueue`: create a queued job under a fresh id, register and track it,
push it on the queue and drain. -/
def enqueueStep (s : JMState) : JMState :=
  let job : MJob :=
    { id := s.nextId
      state := .queued
      cancelRequested := false
      started := false
      resolved := false
      timeoutPending := false
      events := []
      errorCode := none }
  drain { s with
          jobs := s.jobs ++ [job]
          queue := s.queue ++ [s.nextId]
          history := trackJob s.history s.nextId
          nextId := s.nextId + 1 }

/-- `cancel(id)`: a queued job is spliced out of the queue and cancelled; a
running job gets its cancel handle invoked (`cancelRequested`) and is
cancelled; anything else is left alone (the route answers 409). -/
def cancelStep (s : JMState) (id : Nat) : JMState :=
  if id ∈ s.queue then
    { s with
      queue := s.queue.erase id
      jobs := updateFirst s.jobs id (fun j =>
        emitJob { j with state := .cancelled } (.state .cancelled none)) }
  else
    match s.jobs.find? (fun j => j.id = id) with
    | none => s
    | some j =>
      if j.state = .running then
        { s with
          jobs := updateFirst s.jobs id (fun j =>
            emitJob { j with cancelRequested := true, state := .cancelled }
              (.state .cancelled none)) }
      else s

/-- The synchronous prefix of the timeout callback: a no-op unless the
job is still running, else record the timeout error and enter
`await job.cancel()` (which sets `cancelRequested` and signals the child).
The callback is now suspended with its continuation outstanding
(`timeoutPending`); the job's state is not yet changed. -/
def timeoutFireStep (s : JMState) (id : Nat) : JMState :=
  match s.jobs.find? (fun j => j.id = id) with
  | none => s
  | some j =>
    if j.state = .running then
      { s with
        jobs := updateFirst s.jobs id (fun j =>
          { j with
            errorCode := some "timeout"
            cancelRequested := true
            timeoutPending := true }) }
    else s

/-- The timeout callback's continuation, resuming after
`await job.cancel()`: the source re-checks nothing here and
unconditionally sets `state = "error"` and emits the `error` state event —
even if the runner settled or an HTTP cancel landed during the await and
already made the job terminal. -/
def timeoutResumeStep (s : JMState) (id : Nat) : JMState :=
  match s.jobs.find? (fun j => j.id = id) with
  | none => s
  | some j =>
    if j.timeoutPending then
      { s with
        jobs := updateFirst s.jobs id (fun j =>
          emitJob { j with timeoutPending := false, state := .error }
            (.state .error (some "Timed out"))) }
    else s

/-- What a settling runner promise does to its job (`then`/`catch`): mark
the promise resolved; if the job is still running it becomes `done`, or
`error` with the recorded message, with the matching state event. -/
def resolveJob (ok : Bool) (msg : String) (j : MJob) : MJob :=
  let j := { j with resolved := true }
  if j.state = .running then
    if ok then emitJob { j with state := .done } (.state .done none)
    else
      emitJob { j with state := .error, errorCode := some "internal_error" }
        (.state .error (some msg))
  else j

/-- A started runner's promise settling (`then`/`catch` then `finally`):
if the job is still running it becomes `done` or `error` with the matching
state event; either way the timer is cleared, `running` drops and the
queue drains.  Guarded on a live runner: started and not yet resolved. -/
def resolveStep (s : JMState) (id : Nat) (ok : Bool) (msg : String) : JMState :=
  match s.jobs.find? (fun j => j.id = id) with
  | none => s
  | some j =>
    if j.started && !j.resolved then
      drain { s with
              jobs := updateFirst s.jobs id (resolveJob ok msg)
              running := s.running - 1 }
    else s

/-- The runner logging a line through `ctx.logStdout`/`ctx.logStderr`,
possible whenever its promise is still outstanding — even after the job
was cancelled or timed out. -/
def runnerLogStep (s : JMState) (id : Nat) (stream line : String) : JMState :=
  match s.jobs.find? (fun j => j.id = id) with
  | none => s
  | some j =>
    if j.started && !j.resolved then
      { s with jobs := updateFirst s.jobs id (fun j => emitJob j (.log stream line)) }
    else s

/-- The runner emitting a progress event through `ctx.progress`. -/
def runnerProgressStep (s : JMState) (id : Nat) (detail : String) : JMState :=
  match s.jobs.find? (fun j => j.id = id) with
  | none => s
  | some j =>
    if j.started && !j.resolved then
      { s with jobs := updateFirst s.jobs id (fun j => emitJob j (.progress detail)) }
    else s

/-- The atomic steps the event loop interleaves. -/
inductive JMEv
  | enqueue
  | cancel (id : Nat)
  | timeoutFire (id : Nat)
  | timeoutResume (id : Nat)
  | resolve (id : Nat) (ok : Bool) (msg : String)
  | runnerLog (id : Nat) (stream line : String)
  | runnerProgress (id : Nat) (detail : String)
deriving DecidableEq, Repr

/-- One step of the job manager. -/
def jmStep (s : JMState) : JMEv → JMState
  | .enqueue => enqueueStep s
  | .cancel id => cancelStep s id
  | .timeoutFire id => timeoutFireStep s id
  | .timeoutResume id => timeoutResumeStep s id
  | .resolve id ok msg => resolveStep s id ok msg
  | .runnerLog id stream line => runnerLogStep s id stream line
  | .runnerProgress id detail => runnerProgressStep s id detail

/-- Run a sequence of steps. -/
def jmRun (s : JMState) (evs : List JMEv) : JMState :=
  evs.foldl jmStep s

/-- The number of jobs whose state is `running`. -/
def cntRunning (s : JMState) : Nat :=
  s.jobs.countP (fun j => j.state = .running)

/-- The number of live runners: started and not yet resolved. -/
def cntLive (s : JMState) : Nat :=
  s.jobs.countP (fun j => j.started && !j.resolved)

/-- Whether the last event on a job's ring is a `state` event whose state
matches the job's current state — the property the spec's order invariant
asserts for terminal jobs. -/
def lastIsMatchingStateEvent (j : MJob) : Bool :=
  match j.events.getLast? with
  | some (.state st _) => st = j.state
  | _ => false

/-- The job manager's inductive invariant: the `running` counter is bounded
by the cap and dominates the live runners; a `running`-state job has a live
runner; job ids are distinct and below the id supply; queued ids point at
queued, unstarted jobs; the queue has no duplicates. -/
structure JMInv (s : JMState) : Prop where
  run_le : s.running ≤ s.maxConcurrent
  live_le : cntLive s ≤ s.running
  run_live : ∀ j ∈ s.jobs, j.state = .running →
    j.started = true ∧ j.resolved = false
  ids_nodup : (s.jobs.map (fun j => j.id)).Nodup
  ids_lt : ∀ j ∈ s.jobs, j.id < s.nextId
  queue_jobs : ∀ id ∈ s.queue, ∃ j ∈ s.jobs,
    j.id = id ∧ j.state = .queued ∧ j.started = false
  queue_nodup : s.queue.Nodup
  pending_started : ∀ j ∈ s.jobs, j.timeoutPending = true → j.started = true

/-- Which job, if any, an event's timeout continuation may overwrite:
only `timeoutResume id` can clobber a terminal state, and only of job
`id`. -/
def overrideOf : JMEv → Option Nat
  | .timeoutResume id => some id
  | _ => none

/-- One manager step simulates safely up to the timeout continuation: the
invariant holds afterwards, a terminal job keeps its id and state — unless
the step is the overriding timeout continuation for that very job, which
forces it to `error` with the matching `error` state event emitted — every
terminal job after the step was already terminal in that state or has the
matching state event last on its ring, and the cap is untouched. -/
def JMSim (override : Option Nat) (s s' : JMState) : Prop :=
  JMInv s'
  ∧ (∀ j ∈ s.jobs, isTerminal j.state = true →
      ∃ j' ∈ s'.jobs, j'.id = j.id ∧
        (j'.state = j.state
          ∨ (override = some j.id ∧ j'.state = JState.error
              ∧ j'.events.getLast? =
                  some (.state JState.error (some "Timed out")))))
  ∧ (∀ j' ∈ s'.jobs, isTerminal j'.state = true →
      (∃ j ∈ s.jobs, j.id = j'.id ∧ j.state = j'.state)
      ∨ ∃ msg, j'.events.getLast? = some (.state j'.state msg))
  ∧ s'.maxConcurrent = s.maxConcurrent

/-! ## Dependency install command (`src/deps.ts`)

`buildInstallCommand` probes the filesystem for lockfiles and `.yarnrc.yml`;
those probes enter the model as boolean arguments (`lockfileExists` is
`hasAnyLockfile`, `isBerry` the `.yarnrc.yml` check). -/

/-- The supported package managers after selection. -/
inductive PkgManager
  | npm
  | pnpm
  | yarn
deriving DecidableEq, Repr, Fintype

/-- The requested install mode. -/
inductive InstallMode
  | auto
  | ci
  | install
deriving DecidableEq, Repr, Fintype

/-- `buildInstallCommand`: `useCi` is `mode === "ci" || (mode === "auto" &&
lockfileExists)`, then each manager assembles its argument vector. -/
def buildInstallCommand (manager : PkgManager) (mode : InstallMode)
    (safer lockfileExists isBerry : Bool) : String × List String :=
  let useCi := mode = InstallMode.ci || (mode = InstallMode.auto && lockfileExists)
  match manager with
  | .pnpm =>
    ("pnpm", ["install"]
      ++ (if useCi then ["--frozen-lockfile"] else [])
      ++ (if safer then ["--ignore-scripts"] else []))
  | .yarn =>
    ("yarn", ["install"]
      ++ (if useCi || isBerry then ["--immutable"] else [])
      ++ (if safer then ["--ignore-scripts"] else []))
  | .npm =>
    ("npm", [if useCi then "ci" else "install"]
      ++ (if safer then ["--ignore-scripts"] else []))

/-- The `POST /v1/deps/install` handler's defaulting of `safer`
(`payload.safer ?? ctx.config.deps.defaultSafer`). -/
def saferOf (payloadSafer : Option Bool) (defaultSafer : Bool) : Bool :=
  payloadSafer.getD defaultSafer

/-- The claim's own rule for when npm runs `ci`: a lockfile is present and
the requested mode is not `install`.  Kept for comparison with the code. -/
def npmCiPerClaim (mode : InstallMode) (lockfileExists : Bool) : Bool :=
  lockfileExists && mode ≠ InstallMode.install

/-! ## Admission pipeline (`src/app.ts`, `src/security.ts`)

The middleware chain in `createApp`, in mounting order: the body parser
(`express.json({limit:"256kb"})`), `loopbackGuard`, `hostGuard`,
`originGuard(allowlist)` (which also answers preflights), the `/v1` rate
limiter, then the route handler.  A guard that rejects short-circuits into
the terminal error handler, which writes the typed error's status/body. -/

/-- What the admission model needs of a request. -/
structure MRequest where
  peerAddress : Option String
  host : Option String
  origin : Option String
  method : String
  bodySize : Nat
  rateLimited : Bool
deriving DecidableEq, Repr

/-- A written response: status and the typed `errorCode`, if any. -/
structure MResponse where
  status : Nat
  errorCode : Option String
deriving DecidableEq, Repr

/-- `express.json({ limit: "256kb" })`'s byte limit. -/
def JSON_BODY_LIMIT : Nat := 256 * 1024

/-- `isLoopbackAddress` from `src/security.ts`. -/
def isLoopbackAddress (address : Option String) : Bool :=
  match address with
  | none => false
  | some a =>
    if a = "127.0.0.1" || a = "::1" then true
    else strStartsWith a "::ffff:127.0.0.1"

/-- The characters before the first `:` — `host.split(":")[0]`. -/
def takeUntilColon : List Char → List Char
  | [] => []
  | c :: cs => if c = ':' then [] else c :: takeUntilColon cs

/-- `hostGuard`'s check: the `Host` header's hostname part is `127.0.0.1`
or `localhost`. -/
def hostAllowed (host : Option String) : Bool :=
  match host with
  | none => false
  | some h =>
    String.mk (takeUntilColon h.data) = "127.0.0.1"
      || String.mk (takeUntilColon h.data) = "localhost"

/-- `getOrigin` from `src/security.ts`: the header, or `""` when absent. -/
def getOriginOf (origin : Option String) : String :=
  match origin with
  | none => ""
  | some o => o

/-- The middleware chain of `createApp` applied to one request: the first
guard to reject wins and the handler runs only if every guard passed. -/
def handleRequest (allowlist : List String) (req : MRequest)
    (handler : MRequest → MResponse) : MResponse :=
  if req.bodySize > JSON_BODY_LIMIT then
    { status := 413, errorCode := some "request_too_large" }
  else if !(isLoopbackAddress req.peerAddress) then
    { status := 403, errorCode := some "origin_not_allowed" }
  else if !(hostAllowed req.host) then
    { status := 403, errorCode := some "origin_not_allowed" }
  else
    if getOriginOf req.origin = ""
        || !(allowlist.contains (getOriginOf req.origin)) then
      { status := 403, errorCode := some "origin_not_allowed" }
    else if req.method = "OPTIONS" then
      { status := 204, errorCode := none }
    else if req.rateLimited then
      { status := 429, errorCode := some "rate_limited" }
    else handler req

/-! ## Concrete fixtures used by witnesses -/

/-- A workspace `/ws` containing a symlink `/ws/link` that points at the
directory `/outside`, which is not under the workspace root. -/
def fsFix : FS :=
  { nodes :=
      [ (["ws"], .dir)
      , (["ws", "link"], .symlink ["outside"])
      , (["outside"], .dir) ] }

/-- A stand-in key-derivation function for witnesses; the theorems hold for
every such function. -/
def scryptFix : String → String → List Nat :=
  fun token salt => [token.length, salt.length]

end GitDaemon

namespace GitDaemon

/-! ## Helper lemmas -/

theorem find?_eq_none_of_forall {α : Type} {p : α → Bool} {l : List α}
    (h : ∀ x ∈ l, p x = false) : l.find? p = none :=
  List.find?_eq_none.mpr fun x hx => by simp [h x hx]

/-- When one approval entry grants a capability, spelled out as a
proposition: same origin and capability, and a wildcard/absent `repoPath`,
an exact match, or a relative `repoPath` resolving to the argument. -/
theorem entryGrants_iff (workspaceRoot : Option String)
    (origin repoPath : String) (capability : Capability)
    (entry : ApprovalEntry) :
    entryGrants workspaceRoot origin repoPath capability entry = true ↔
      entry.origin = origin ∧ capability ∈ entry.capabilities ∧
        (entry.repoPath = none ∨ entry.repoPath = some "*" ∨
          entry.repoPath = some repoPath ∨
          ∃ ws rp, workspaceRoot = some ws ∧ entry.repoPath = some rp ∧
            ws ≠ "" ∧ rp ≠ "" ∧ isAbsolutePath rp = false ∧
            pathResolveStr ws rp = repoPath) := by
  rcases entry with ⟨eo, erp, ecaps, eat⟩
  unfold entryGrants
  simp only
  by_cases ho : eo = origin
  · subst ho
    by_cases hc : capability ∈ ecaps
    · have hcond : (decide (eo ≠ eo) || !ecaps.contains capability) = false := by
        simp [hc]
      rw [if_neg (by simp [hcond, hc])]
      rcases erp with _ | rp
      · simp [hc]
      · by_cases hstar : rp = "*"
        · subst hstar; simp [hc]
        · by_cases heq : rp = repoPath
          · subst heq; simp [hc]
          · rcases workspaceRoot with _ | ws
            · simp [hc, hstar, heq]
            · by_cases hws : ws = ""
              · simp [hc, hstar, heq, hws]
              · by_cases hrp : rp = ""
                · simp [hc, hstar, heq, hrp]
                · by_cases habs : isAbsolutePath rp = true
                  · simp [hc, hstar, heq, hws, hrp, habs]
                  · simp only [Bool.not_eq_true] at habs
                    simp [hc, hstar, heq, hws, hrp, habs]
    · simp [hc]
  · simp [ho]

end GitDaemon

namespace GitDaemon

/-! ## C1: the workspace sandbox rejects every escape -/

/-- C1: for every workspace root and candidate whose resolution against the
canonical root, after symlink expansion, does not lie at or under the
canonical root, `resolveInsideWorkspace` fails with the
`path_outside_workspace` error, which carries HTTP status 409. -/
theorem C1_sandbox_rejects_escapes (fs : FS) (root candidate : String)
    (allowMissing : Bool) (rootReal p : MPath)
    (hroot : realpath fs (pathResolve [] root) = .ok rootReal)
    (hcand : realpath fs (pathResolve rootReal candidate) = .ok p)
    (hout : isInside rootReal p = false) :
    resolveInsideWorkspace fs root candidate allowMissing
        = .error .pathOutsideWorkspace
      ∧ wsErrorStatus .pathOutsideWorkspace = 409 := by
  refine ⟨?_, rfl⟩
  unfold resolveInsideWorkspace
  split
  · rfl
  · rw [hroot]
    by_cases hin : isInside rootReal (pathResolve rootReal candidate) = true
    · simp [realpathSafe, hin, hcand, hout]
    · simp only [Bool.not_eq_true] at hin
      simp [hin]

/-- C1 witness: `/ws/link` is a symlink to `/outside`; the candidate
`link` resolves outside the root and is rejected with
`path_outside_workspace` even with `allowMissing` set. -/
theorem C1_sandbox_rejects_escapes_witness :
    resolveInsideWorkspace fsFix "/ws" "link" true
        = .error .pathOutsideWorkspace
      ∧ wsErrorStatus .pathOutsideWorkspace = 409 :=
  C1_sandbox_rejects_escapes fsFix "/ws" "link" true ["ws"] ["outside"]
    (by rfl) (by rfl) (by rfl)

/-! ## C2: the approval predicate, characterised -/

/-- C2: `hasApproval` returns true iff some approval entry has the same
origin, its capability set contains the capability, and either its
`repoPath` is the wildcard or absent, or it equals the argument path, or it
is relative (and non-empty, with a non-empty workspace root configured) and
resolved against the workspace root equals the argument path. -/
theorem C2_hasApproval_iff (config : ApprovalsConfig)
    (origin repoPath : String) (capability : Capability)
    (workspaceRoot : Option String) :
    hasApproval config origin repoPath capability workspaceRoot = true ↔
      ∃ entry ∈ config.entries,
        entry.origin = origin ∧ capability ∈ entry.capabilities ∧
          (entry.repoPath = none ∨ entry.repoPath = some "*" ∨
            entry.repoPath = some repoPath ∨
            ∃ ws rp, workspaceRoot = some ws ∧ entry.repoPath = some rp ∧
              ws ≠ "" ∧ rp ≠ "" ∧ isAbsolutePath rp = false ∧
              pathResolveStr ws rp = repoPath) := by
  unfold hasApproval
  rw [List.any_eq_true]
  constructor
  · rintro ⟨e, he, hg⟩
    exact ⟨e, he,
      (entryGrants_iff workspaceRoot origin repoPath capability e).mp hg⟩
  · rintro ⟨e, he, hg⟩
    exact ⟨e, he,
      (entryGrants_iff workspaceRoot origin repoPath capability e).mpr hg⟩

/-! ## C3: token verification across issue, revoke and expiry -/

/-- No entry of a list whose members all carry a different origin is found
when searching by that origin. -/
theorem find?_origin_none {origin : String} {l : List TokenEntry}
    (h : ∀ x ∈ l, x.origin ≠ origin) :
    l.find? (fun e => e.origin = origin) = none :=
  find?_eq_none_of_forall fun x hx => by simp [h x hx]

/-- Searching an appended list skips a first part with no match. -/
theorem find?_append_right {α : Type} {p : α → Bool} {l₁ l₂ : List α}
    (h : l₁.find? p = none) : (l₁ ++ l₂).find? p = l₂.find? p := by
  induction l₁ with
  | nil => rfl
  | cons a l ih =>
    rw [List.find?_eq_none] at h
    have ha : p a = false := by
      have := h a (List.mem_cons_self a l)
      simp at this
      exact this
    simp only [List.cons_append, List.find?, ha]
    exact ih (List.find?_eq_none.mpr fun x hx =>
      h x (List.mem_cons_of_mem a hx))

/-- C3 counterexample: the claim quantifies over every ttl, but a token
issued with `ttlDays = 0` expires at the very instant it is issued
(`expiresAt > now` fails and the record is pruned), so `verifyToken`
called immediately after `issueToken` already returns false. -/
theorem C3_token_lifecycle_cex :
    (verifyToken scryptFix 1000 "https://app" "tok"
        (issueToken scryptFix 1000 "https://app" 0 "tok" "salt"
          { entries := [] }).1).2 = false := by rfl

/-- The verdict of `verifyToken`, written without the intermediate
bindings. -/
theorem verifyToken_snd_eq (scrypt : String → String → List Nat) (now : Int)
    (origin tok : String) (s : TokenStore) :
    (verifyToken scrypt now origin tok s).2 =
      match (pruneExpired now s).entries.find? (fun e => e.origin = origin) with
      | none => false
      | some e =>
        if e.tokenHash.length ≠ (scrypt tok e.salt).length then false
        else decide (e.tokenHash = scrypt tok e.salt) := by
  cases h : (pruneExpired now s).entries.find? (fun e => e.origin = origin) with
  | none => simp [verifyToken, h]
  | some e =>
    simp only [verifyToken, h]
    split <;> simp_all

/-- `verifyToken` answers false on a store holding no entry for the
origin. -/
theorem verifyToken_false_of_no_origin (scrypt : String → String → List Nat)
    (now : Int) (origin tok : String) (s : TokenStore)
    (h : ∀ e ∈ s.entries, e.origin ≠ origin) :
    (verifyToken scrypt now origin tok s).2 = false := by
  rw [verifyToken_snd_eq,
    @find?_origin_none origin (pruneExpired now s).entries
      (fun x hx => h x (List.mem_filter.mp hx).1)]

/-- C3 (amended): for every positive ttl, `verifyToken` returns true
immediately after `issueToken` handed out that plaintext; it returns false
at any time after `revokeToken`, and at any time from the issued record's
`expiresAt` on. -/
theorem C3_token_lifecycle (scrypt : String → String → List Nat)
    (s : TokenStore) (origin token salt : String) (now ttlDays : Int)
    (httl : 0 < ttlDays) :
    (verifyToken scrypt now origin token
        (issueToken scrypt now origin ttlDays token salt s).1).2 = true
    ∧ (∀ (t : Int) (tok : String) (s' : TokenStore),
        (verifyToken scrypt t origin tok (revokeToken origin s')).2 = false)
    ∧ (∀ (t : Int) (tok : String),
        now + ttlDays * 24 * 60 * 60 * 1000 ≤ t →
        (verifyToken scrypt t origin tok
            (issueToken scrypt now origin ttlDays token salt s).1).2 = false) := by
  have hfiltered : ∀ x ∈ s.entries.filter (fun e => decide (e.origin ≠ origin)),
      x.origin ≠ origin := by
    intro x hx
    simpa using (List.mem_filter.mp hx).2
  have hstore : (issueToken scrypt now origin ttlDays token salt s).1.entries
      = s.entries.filter (fun e => decide (e.origin ≠ origin))
        ++ [{ origin := origin
              tokenHash := scrypt token salt
              salt := salt
              createdAt := now
              expiresAt := some (now + ttlDays * 24 * 60 * 60 * 1000) }] := rfl
  have hpr : ∀ t : Int,
      (pruneExpired t (issueToken scrypt now origin ttlDays token salt s).1).entries
        = List.filter (fun e =>
            match e.expiresAt with
            | none => true
            | some u => decide (u > t))
          (s.entries.filter (fun e => decide (e.origin ≠ origin))
            ++ [{ origin := origin
                  tokenHash := scrypt token salt
                  salt := salt
                  createdAt := now
                  expiresAt := some (now + ttlDays * 24 * 60 * 60 * 1000) }]) :=
    fun t => by rw [pruneExpired, hstore]
  refine ⟨?_, ?_, ?_⟩
  · rw [verifyToken_snd_eq, hpr now, List.filter_append, find?_append_right]
    · have hkeep : now + ttlDays * 24 * 60 * 60 * 1000 > now := by
        have : (0 : Int) < ttlDays * (24 * 60 * 60 * 1000) :=
          mul_pos httl (by norm_num)
        omega
      simp [List.find?, hkeep]
    · exact find?_origin_none fun x hx =>
        hfiltered x (List.mem_filter.mp hx).1
  · intro t tok s'
    exact verifyToken_false_of_no_origin scrypt t origin tok
      (revokeToken origin s')
      (fun e he => by simpa using (List.mem_filter.mp he).2)
  · intro t tok ht
    rw [verifyToken_snd_eq, hpr t, List.filter_append, find?_append_right]
    · have hdrop : ¬ (now + ttlDays * 24 * 60 * 60 * 1000 > t) := by omega
      simp [hdrop]
    · exact find?_origin_none fun x hx =>
        hfiltered x (List.mem_filter.mp hx).1

/-- C3 witness: at a ttl of one day, a token verifies right after issue,
fails after revocation, and fails once the expiry has passed. -/
theorem C3_token_lifecycle_witness :
    (verifyToken scryptFix 0 "https://app" "tok"
        (issueToken scryptFix 0 "https://app" 1 "tok" "salt"
          { entries := [] }).1).2 = true
    ∧ (∀ (t : Int) (tok : String) (s' : TokenStore),
        (verifyToken scryptFix t "https://app" tok
          (revokeToken "https://app" s')).2 = false)
    ∧ (∀ (t : Int) (tok : String),
        (0 : Int) + 1 * 24 * 60 * 60 * 1000 ≤ t →
        (verifyToken scryptFix t "https://app" tok
            (issueToken scryptFix 0 "https://app" 1 "tok" "salt"
              { entries := [] }).1).2 = false) :=
  C3_token_lifecycle scryptFix { entries := [] } "https://app" "tok" "salt"
    0 1 (by norm_num)

/-! ## C4: pairing codes are single-use -/

/-- A deleted origin is no longer in the code map. -/
theorem codesGet_codesDelete (m : List (String × String × Int))
    (origin : String) : codesGet (codesDelete m origin) origin = none := by
  unfold codesGet codesDelete
  rw [find?_eq_none_of_forall]
  · rfl
  · intro x hx
    simpa using (List.mem_filter.mp hx).2

/-- C4: if `confirm(origin, code)` succeeds, then replaying `confirm` with
the same code against the resulting state fails (the code was consumed),
and the pairing route surfaces that failure as an HTTP 422 error. -/
theorem C4_pairing_single_use (scrypt : String → String → List Nat)
    (now₁ now₂ ttl₁ ttl₂ : Int) (origin code : String)
    (tok₁ salt₁ tok₂ salt₂ : String) (p : PairState) (s : TokenStore)
    (r : String × Int)
    (h : (pairConfirm scrypt now₁ origin code ttl₁ tok₁ salt₁ p s).1 = some r) :
    (pairConfirm scrypt now₂ origin code ttl₂ tok₂ salt₂
        (pairConfirm scrypt now₁ origin code ttl₁ tok₁ salt₁ p s).2.1
        (pairConfirm scrypt now₁ origin code ttl₁ tok₁ salt₁ p s).2.2).1 = none
    ∧ pairConfirmRouteError
        (pairConfirm scrypt now₂ origin code ttl₂ tok₂ salt₂
          (pairConfirm scrypt now₁ origin code ttl₁ tok₁ salt₁ p s).2.1
          (pairConfirm scrypt now₁ origin code ttl₁ tok₁ salt₁ p s).2.2).1
        = some (422, "internal_error") := by
  cases hg : codesGet p.codes origin with
  | none => simp [pairConfirm, hg] at h
  | some entry =>
    by_cases hcond : (decide (entry.1 ≠ code) || decide (entry.2 < now₁)) = true
    · simp only [pairConfirm, hg, hcond, if_true] at h
      cases h
    · have hstate : (pairConfirm scrypt now₁ origin code ttl₁ tok₁ salt₁ p s).2.1
          = PairState.mk (codesDelete p.codes origin) := by
        simp only [pairConfirm, hg, hcond, if_false, Bool.false_eq_true]
      have hsecond : (pairConfirm scrypt now₂ origin code ttl₂ tok₂ salt₂
          (pairConfirm scrypt now₁ origin code ttl₁ tok₁ salt₁ p s).2.1
          (pairConfirm scrypt now₁ origin code ttl₁ tok₁ salt₁ p s).2.2).1 = none := by
        rw [hstate]
        simp [pairConfirm, codesGet_codesDelete]
      exact ⟨hsecond, by rw [hsecond]; rfl⟩

/-- C4 witness: a concrete confirm that succeeds once and fails with a 422
when replayed. -/
theorem C4_pairing_single_use_witness :
    (pairConfirm scryptFix 5 "https://app" "aabbccdd" 30 "t" "s"
        (pairConfirm scryptFix 5 "https://app" "aabbccdd" 30 "t" "s"
          (pairStart 0 "https://app" "aabbccdd" { codes := [] }).1
          { entries := [] }).2.1
        (pairConfirm scryptFix 5 "https://app" "aabbccdd" 30 "t" "s"
          (pairStart 0 "https://app" "aabbccdd" { codes := [] }).1
          { entries := [] }).2.2).1 = none
    ∧ pairConfirmRouteError
        (pairConfirm scryptFix 5 "https://app" "aabbccdd" 30 "t" "s"
          (pairConfirm scryptFix 5 "https://app" "aabbccdd" 30 "t" "s"
            (pairStart 0 "https://app" "aabbccdd" { codes := [] }).1
            { entries := [] }).2.1
          (pairConfirm scryptFix 5 "https://app" "aabbccdd" 30 "t" "s"
            (pairStart 0 "https://app" "aabbccdd" { codes := [] }).1
            { entries := [] }).2.2).1
        = some (422, "internal_error") :=
  C4_pairing_single_use scryptFix 5 5 30 30 "https://app" "aabbccdd"
    "t" "s" "t" "s"
    (pairStart 0 "https://app" "aabbccdd" { codes := [] }).1
    { entries := [] } ("t", 2592000005) (by rfl)

/-! ## C9: a malformed expiry is never pruned -/

/-- An entry whose expiry does not parse survives one prune pass. -/
theorem mem_pruneExpired {e : TokenEntry} {s : TokenStore} (t : Int)
    (hmem : e ∈ s.entries) (hexp : e.expiresAt = none) :
    e ∈ (pruneExpired t s).entries :=
  List.mem_filter.mpr ⟨hmem, by rw [hexp]⟩

/-- An entry whose expiry does not parse survives any run of prune
passes. -/
theorem mem_prunePasses {e : TokenEntry} (times : List Int) (s : TokenStore)
    (hmem : e ∈ s.entries) (hexp : e.expiresAt = none) :
    e ∈ (prunePasses times s).entries := by
  induction times generalizing s with
  | nil => exact hmem
  | cons t ts ih => exact ih (pruneExpired t s) (mem_pruneExpired t hmem hexp)

/-- Prune passes only ever remove entries. -/
theorem prunePasses_subset {x : TokenEntry} (times : List Int)
    (s : TokenStore) (hx : x ∈ (prunePasses times s).entries) :
    x ∈ s.entries := by
  induction times generalizing s with
  | nil => exact hx
  | cons t ts ih => exact List.mem_of_mem_filter (ih (pruneExpired t s) hx)

/-- In a list drawn from a store whose only entry for `origin` is `e`,
searching by `origin` finds exactly `e`. -/
theorem find?_of_unique_origin {origin : String} {e : TokenEntry}
    {s : TokenStore} {l : List TokenEntry}
    (hsub : ∀ x ∈ l, x ∈ s.entries) (hmem : e ∈ l)
    (horigin : e.origin = origin)
    (huniq : ∀ x ∈ s.entries, x.origin = origin → x = e) :
    l.find? (fun x => x.origin = origin) = some e := by
  induction l with
  | nil => cases hmem
  | cons a l ih =>
    by_cases ha : a.origin = origin
    · have hae : a = e := huniq a (hsub a (List.mem_cons_self a l)) ha
      subst hae
      simp [List.find?_cons, ha]
    · have hne : e ≠ a := fun hcontra => ha (hcontra ▸ horigin)
      have hmem' : e ∈ l := by
        rcases List.mem_cons.mp hmem with h1 | h1
        · exact absurd h1 hne
        · exact h1
      have hskip : List.find? (fun x => x.origin = origin) (a :: l)
          = List.find? (fun x => x.origin = origin) l := by
        simp [List.find?_cons, ha]
      rw [hskip]
      exact ih (fun x hx => hsub x (List.mem_cons_of_mem a hx)) hmem'

/-- The lookup result of `getActiveToken`, without the intermediate
binding. -/
theorem getActiveToken_snd_eq (now : Int) (origin : String) (s : TokenStore) :
    (getActiveToken now origin s).2
      = (pruneExpired now s).entries.find? (fun e => e.origin = origin) := rfl

/-- C9: a persisted token entry whose `expiresAt` does not parse is never
removed by pruning — after any number of prune passes at any times,
`getActiveToken` still returns it and `verifyToken` still accepts its
token, so a malformed expiry behaves as a token that never expires. -/
theorem C9_malformed_expiry_never_pruned (scrypt : String → String → List Nat)
    (s : TokenStore) (e : TokenEntry) (times : List Int) (now : Int)
    (origin token : String)
    (hmem : e ∈ s.entries) (hexp : e.expiresAt = none)
    (horigin : e.origin = origin)
    (huniq : ∀ x ∈ s.entries, x.origin = origin → x = e)
    (hhash : e.tokenHash = scrypt token e.salt) :
    e ∈ (prunePasses times s).entries
    ∧ (getActiveToken now origin (prunePasses times s)).2 = some e
    ∧ (verifyToken scrypt now origin token (prunePasses times s)).2 = true := by
  have hmem' : e ∈ (prunePasses times s).entries :=
    mem_prunePasses times s hmem hexp
  have hfind : (pruneExpired now (prunePasses times s)).entries.find?
      (fun x => x.origin = origin) = some e := by
    apply find?_of_unique_origin _ (mem_pruneExpired now hmem' hexp) horigin huniq
    intro x hx
    exact prunePasses_subset times s (List.mem_of_mem_filter hx)
  refine ⟨hmem', ?_, ?_⟩
  · rw [getActiveToken_snd_eq, hfind]
  · rw [verifyToken_snd_eq, hfind]
    simp [hhash]

/-- C9 witness: a store holding one entry with an unparseable expiry; the
entry survives two prune passes and still verifies at a late time. -/
theorem C9_malformed_expiry_never_pruned_witness :
    ({ origin := "https://app"
       tokenHash := [3, 3]
       salt := "slt"
       createdAt := 0
       expiresAt := none } : TokenEntry)
        ∈ (prunePasses [5, 999999999]
            { entries := [{ origin := "https://app"
                            tokenHash := [3, 3]
                            salt := "slt"
                            createdAt := 0
                            expiresAt := none }] }).entries
    ∧ (getActiveToken 123456789 "https://app"
        (prunePasses [5, 999999999]
          { entries := [{ origin := "https://app"
                          tokenHash := [3, 3]
                          salt := "slt"
                          createdAt := 0
                          expiresAt := none }] })).2
        = some { origin := "https://app"
                 tokenHash := [3, 3]
                 salt := "slt"
                 createdAt := 0
                 expiresAt := none }
    ∧ (verifyToken scryptFix 123456789 "https://app" "tok"
        (prunePasses [5, 999999999]
          { entries := [{ origin := "https://app"
                          tokenHash := [3, 3]
                          salt := "slt"
                          createdAt := 0
                          expiresAt := none }] })).2 = true :=
  C9_malformed_expiry_never_pruned scryptFix
    { entries := [{ origin := "https://app"
                    tokenHash := [3, 3]
                    salt := "slt"
                    createdAt := 0
                    expiresAt := none }] }
    { origin := "https://app"
      tokenHash := [3, 3]
      salt := "slt"
      createdAt := 0
      expiresAt := none }
    [5, 999999999] 123456789 "https://app" "tok"
    (by simp) rfl rfl (by simp) rfl

/-! ## C10: at most one outstanding pairing code per origin -/

/-- C10: a second `start(origin)` replaces the stored code, after which
`confirm(origin, firstCode)` fails even though the first code's TTL has
not elapsed. -/
theorem C10_start_replaces_code (now₁ now₂ now₃ : Int)
    (origin c₁ c₂ : String) (scrypt : String → String → List Nat)
    (ttl : Int) (tok salt : String) (p : PairState) (s : TokenStore)
    (hne : c₂ ≠ c₁)
    (hfresh : now₃ ≤ now₁ + PAIRING_TTL_MS) :
    codesGet (pairStart now₂ origin c₂
        (pairStart now₁ origin c₁ p).1).1.codes origin
      = some (c₂, now₂ + PAIRING_TTL_MS)
    ∧ (pairConfirm scrypt now₃ origin c₁ ttl tok salt
        (pairStart now₂ origin c₂ (pairStart now₁ origin c₁ p).1).1 s).1
      = none := by
  have hget : codesGet (pairStart now₂ origin c₂
      (pairStart now₁ origin c₁ p).1).1.codes origin
      = some (c₂, now₂ + PAIRING_TTL_MS) := by
    simp [pairStart, codesSet, codesGet, List.find?_cons]
  refine ⟨hget, ?_⟩
  simp [pairConfirm, hget, hne]

/-- C10 witness: two concrete starts for one origin; the map holds the
second code and confirming the first, still-unexpired code fails. -/
theorem C10_start_replaces_code_witness :
    codesGet (pairStart 1 "https://app" "bbbb1111"
        (pairStart 0 "https://app" "aaaa0000" { codes := [] }).1).1.codes
        "https://app"
      = some ("bbbb1111", 1 + PAIRING_TTL_MS)
    ∧ (pairConfirm scryptFix 2 "https://app" "aaaa0000" 30 "t" "s"
        (pairStart 1 "https://app" "bbbb1111"
          (pairStart 0 "https://app" "aaaa0000" { codes := [] }).1).1
        { entries := [] }).1
      = none :=
  C10_start_replaces_code 0 1 2 "https://app" "aaaa0000" "bbbb1111"
    scryptFix 30 "t" "s" { codes := [] } { entries := [] }
    (by decide) (by norm_num [PAIRING_TTL_MS])

/-! ## C7: the npm install command -/

/-- C7 counterexample: with `mode = ci` and no lockfile, the code still
runs `npm ci` (`useCi` is true whenever `mode === "ci"`), while the
claim's rule — `ci` exactly when a lockfile is present and the mode is not
`install` — prescribes `npm install` there. -/
theorem C7_npm_install_command_cex :
    ¬ (((buildInstallCommand .npm .ci false false false).2.head? = some "ci")
        ↔ npmCiPerClaim .ci false = true) := by decide

/-- C7 (amended): the npm install job's command is `npm ci` exactly when
the requested mode is `ci`, or the mode is `auto` and a lockfile is
present; it is `npm install` otherwise.  `--ignore-scripts` is appended
exactly when the effective `safer` flag is set, and that flag is the
request's `safer` field when present, else `deps.defaultSafer`. -/
theorem C7_npm_install_command :
    ∀ (mode : InstallMode) (payloadSafer : Option Bool)
      (defaultSafer lockfileExists isBerry : Bool),
      (buildInstallCommand .npm mode (saferOf payloadSafer defaultSafer)
          lockfileExists isBerry).1 = "npm"
      ∧ (buildInstallCommand .npm mode (saferOf payloadSafer defaultSafer)
            lockfileExists isBerry).2
          = (if mode = InstallMode.ci
                ∨ (mode = InstallMode.auto ∧ lockfileExists = true)
             then ["ci"] else ["install"])
            ++ (if saferOf payloadSafer defaultSafer = true
                then ["--ignore-scripts"] else [])
      ∧ saferOf none defaultSafer = defaultSafer
      ∧ saferOf (some true) defaultSafer = true
      ∧ saferOf (some false) defaultSafer = false := by decide

/-! ## C8: the origin guard -/

/-- C8 counterexample: the body parser is mounted before the admission
guards, so a request with no `Origin` whose body exceeds 256 KiB is
rejected as 413 `request_too_large`, not 403 `origin_not_allowed`. -/
theorem C8_origin_guard_cex :
    handleRequest ["http://localhost:5173"]
        { peerAddress := some "127.0.0.1"
          host := some "127.0.0.1"
          origin := none
          method := "POST"
          bodySize := 262145
          rateLimited := false }
        (fun _ => { status := 200, errorCode := none })
      = { status := 413, errorCode := some "request_too_large" }
    ∧ handleRequest ["http://localhost:5173"]
        { peerAddress := some "127.0.0.1"
          host := some "127.0.0.1"
          origin := none
          method := "POST"
          bodySize := 262145
          rateLimited := false }
        (fun _ => { status := 200, errorCode := none })
      ≠ { status := 403, errorCode := some "origin_not_allowed" } := by
  decide

/-- C8 (amended): for every request that gets past the body parser
(body within the 256 KiB limit), a missing or empty `Origin`, or an origin
not in the allowlist, yields a 403 `origin_not_allowed` response — for
every route handler, so no handler runs. -/
theorem C8_origin_guard (allowlist : List String) (req : MRequest)
    (handler : MRequest → MResponse)
    (hbody : req.bodySize ≤ JSON_BODY_LIMIT)
    (horigin : getOriginOf req.origin = ""
      ∨ getOriginOf req.origin ∉ allowlist) :
    handleRequest allowlist req handler
      = { status := 403, errorCode := some "origin_not_allowed" } := by
  have hb : ¬ (req.bodySize > JSON_BODY_LIMIT) := by omega
  have hc : (decide (getOriginOf req.origin = "")
      || !(allowlist.contains (getOriginOf req.origin))) = true := by
    rcases horigin with h | h
    · simp [h]
    · simp [h]
  unfold handleRequest
  rw [if_neg hb]
  by_cases hl : isLoopbackAddress req.peerAddress = true
  · rw [hl]
    by_cases hh : hostAllowed req.host = true
    · rw [hh]
      simp only [hc]
      rfl
    · simp only [Bool.not_eq_true] at hh
      rw [hh]
      rfl
  · simp only [Bool.not_eq_true] at hl
    rw [hl]
    rfl

/-- C8 witness: a loopback request with correct `Host`, a small body and a
missing `Origin` is answered 403 `origin_not_allowed` regardless of the
handler. -/
theorem C8_origin_guard_witness :
    handleRequest ["http://localhost:5173"]
        { peerAddress := some "127.0.0.1"
          host := some "127.0.0.1"
          origin := none
          method := "GET"
          bodySize := 0
          rateLimited := false }
        (fun _ => { status := 200, errorCode := none })
      = { status := 403, errorCode := some "origin_not_allowed" } :=
  C8_origin_guard ["http://localhost:5173"]
    { peerAddress := some "127.0.0.1"
      host := some "127.0.0.1"
      origin := none
      method := "GET"
      bodySize := 0
      rateLimited := false }
    (fun _ => { status := 200, errorCode := none })
    (by norm_num [JSON_BODY_LIMIT]) (Or.inl rfl)

/-! ## Job manager lemmas -/

/-- Decompose a job list around the first job carrying `id`. -/
theorem find?_id_decomp {js : List MJob} {id : Nat} {j : MJob}
    (h : js.find? (fun x => x.id = id) = some j) :
    ∃ pre post, js = pre ++ j :: post ∧ (∀ x ∈ pre, x.id ≠ id) ∧ j.id = id
      ∧ ∀ f, updateFirst js id f = pre ++ f j :: post := by
  induction js with
  | nil => cases h
  | cons a l ih =>
    by_cases ha : a.id = id
    · have haj : a = j := by
        have : some a = some j := by
          rw [← h]
          simp [List.find?_cons, ha]
        exact Option.some.inj this
      subst haj
      exact ⟨[], l, rfl, by simp, ha, fun f => by simp [updateFirst, ha]⟩
    · have h' : l.find? (fun x => x.id = id) = some j := by
        rw [← h]
        simp [List.find?_cons, ha]
      obtain ⟨pre, post, hsplit, hpre, hid, hupd⟩ := ih h'
      refine ⟨a :: pre, post, by simp [hsplit], ?_, hid, fun f => ?_⟩
      · intro x hx
        rcases List.mem_cons.mp hx with rfl | hx'
        · exact ha
        · exact hpre x hx'
      · simp [updateFirst, ha, hupd f]

/-- Every member of an updated job list is an old member or the image of
an old member carrying `id`. -/
theorem mem_updateFirst {js : List MJob} {id : Nat} {f : MJob → MJob}
    {x : MJob} (h : x ∈ updateFirst js id f) :
    x ∈ js ∨ ∃ j ∈ js, j.id = id ∧ x = f j := by
  induction js with
  | nil => cases h
  | cons a l ih =>
    by_cases ha : a.id = id
    · rw [updateFirst, if_pos ha] at h
      rcases List.mem_cons.mp h with rfl | hx
      · exact Or.inr ⟨a, List.mem_cons_self a l, ha, rfl⟩
      · exact Or.inl (List.mem_cons_of_mem a hx)
    · rw [updateFirst, if_neg ha] at h
      rcases List.mem_cons.mp h with rfl | hx
      · exact Or.inl (List.mem_cons_self x l)
      · rcases ih hx with h1 | ⟨j, hj, hjid, hxj⟩
        · exact Or.inl (List.mem_cons_of_mem a h1)
        · exact Or.inr ⟨j, List.mem_cons_of_mem a hj, hjid, hxj⟩

/-- With distinct ids, the first job found by id is the member with that
id. -/
theorem find?_id_of_mem_nodup {js : List MJob} {j : MJob} {id : Nat}
    (hnd : (js.map (fun x => x.id)).Nodup) (hmem : j ∈ js)
    (hid : j.id = id) :
    js.find? (fun x => x.id = id) = some j := by
  induction js with
  | nil => cases hmem
  | cons a l ih =>
    rw [List.map_cons, List.nodup_cons] at hnd
    by_cases ha : a.id = id
    · rcases List.mem_cons.mp hmem with rfl | hl
      · simp [List.find?_cons, ha]
      · exact absurd (List.mem_map.mpr ⟨j, hl, hid.trans ha.symm⟩) hnd.1
    · have hjl : j ∈ l := by
        rcases List.mem_cons.mp hmem with rfl | hl
        · exact absurd hid ha
        · exact hl
      have : List.find? (fun x => x.id = id) (a :: l)
          = List.find? (fun x => x.id = id) l := by
        simp [List.find?_cons, ha]
      rw [this]
      exact ih hnd.2 hjl

/-- With distinct ids, two members with the same id are the same job. -/
theorem eq_of_mem_of_id_eq {js : List MJob}
    (hnd : (js.map (fun x => x.id)).Nodup) {a b : MJob}
    (ha : a ∈ js) (hb : b ∈ js) (hid : a.id = b.id) : a = b := by
  induction js with
  | nil => cases ha
  | cons x l ih =>
    rw [List.map_cons, List.nodup_cons] at hnd
    rcases List.mem_cons.mp ha with rfl | ha' <;>
      rcases List.mem_cons.mp hb with h | hb'
    · exact h ▸ rfl
    · exact absurd (List.mem_map.mpr ⟨b, hb', hid.symm⟩) hnd.1
    · exact absurd (List.mem_map.mpr ⟨a, ha', hid⟩) (h ▸ hnd.1)
    · exact ih hnd.2 ha' hb'

/-- `emitJob` leaves every field except the ring unchanged. -/
theorem emitJob_fields (j : MJob) (e : JEvent) :
    (emitJob j e).id = j.id ∧ (emitJob j e).state = j.state
      ∧ (emitJob j e).started = j.started
      ∧ (emitJob j e).resolved = j.resolved
      ∧ (emitJob j e).cancelRequested = j.cancelRequested :=
  ⟨rfl, rfl, rfl, rfl, rfl⟩

/-- The ring of an emitted job ends with the emitted event. -/
theorem emitJob_getLast (j : MJob) (e : JEvent) :
    (emitJob j e).events.getLast? = some e := by
  have hev : (emitJob j e).events
      = if (j.events ++ [e]).length > MAX_EVENTS
        then (j.events ++ [e]).tail else (j.events ++ [e]) := rfl
  rw [hev]
  split
  next h =>
    cases hj : j.events with
    | nil =>
      rw [hj] at h
      simp [MAX_EVENTS] at h
    | cons x l =>
      show (l ++ [e]).getLast? = some e
      exact List.getLast?_concat _
  next h => exact List.getLast?_concat _

/-- Starting the queue's head preserves the invariant: the started job was
queued and unstarted, the counter stays within the freed cap, and every
job is untouched or merely started. -/
theorem runJobStart_sim {s : JMState} {id : Nat} {rest : List Nat}
    (h : JMInv s) (hrun : s.running < s.maxConcurrent)
    (hq : s.queue = id :: rest) :
    JMInv (runJobStart { s with queue := rest } id)
    ∧ (∀ j ∈ s.jobs, j.state ≠ .queued →
        j ∈ (runJobStart { s with queue := rest } id).jobs)
    ∧ (∀ j' ∈ (runJobStart { s with queue := rest } id).jobs,
        j' ∈ s.jobs ∨ j'.state = .running) := by
  obtain ⟨jq, hjqmem, hjqid, hjqstate, hjqstarted⟩ :=
    h.queue_jobs id (by rw [hq]; exact List.mem_cons_self id rest)
  have hfind := find?_id_of_mem_nodup h.ids_nodup hjqmem hjqid
  obtain ⟨pre, post, hsplit, hpre, _, hupd⟩ := find?_id_decomp hfind
  have hjobs1 : (runJobStart { s with queue := rest } id).jobs
      = pre ++ startJob jq :: post := hupd startJob
  have hmem_of_old : ∀ j ∈ s.jobs, j ≠ jq →
      j ∈ (runJobStart { s with queue := rest } id).jobs := by
    intro j hj hne
    rw [hjobs1]
    rw [hsplit] at hj
    rcases List.mem_append.mp hj with h1 | h1
    · exact List.mem_append_left _ h1
    · rcases List.mem_cons.mp h1 with rfl | h2
      · exact absurd rfl hne
      · exact List.mem_append_right _ (List.mem_cons_of_mem _ h2)
  have hmem_new : ∀ j' ∈ (runJobStart { s with queue := rest } id).jobs,
      (j' ∈ s.jobs ∧ j' ≠ startJob jq ∨ j' = startJob jq) := by
    intro j' hj'
    rw [hjobs1] at hj'
    by_cases hne : j' = startJob jq
    · exact Or.inr hne
    · rcases List.mem_append.mp hj' with h1 | h1
      · exact Or.inl ⟨by rw [hsplit]; exact List.mem_append_left _ h1, hne⟩
      · rcases List.mem_cons.mp h1 with rfl | h2
        · exact absurd rfl hne
        · exact Or.inl ⟨by
            rw [hsplit]
            exact List.mem_append_right _ (List.mem_cons_of_mem _ h2), hne⟩
  have hstart_started : (startJob jq).started = true := rfl
  have hstart_resolved : (startJob jq).resolved = false := rfl
  have hstart_state : (startJob jq).state = JState.running := rfl
  have hstart_id : (startJob jq).id = jq.id := rfl
  have hcnt : cntLive (runJobStart { s with queue := rest } id)
      = cntLive s + 1 := by
    show List.countP _ (runJobStart { s with queue := rest } id).jobs
      = List.countP _ s.jobs + 1
    rw [hjobs1, hsplit, List.countP_append, List.countP_append,
      List.countP_cons, List.countP_cons]
    simp only [hstart_started, hstart_resolved, hjqstarted]
    simp
    omega
  have hrunning : (runJobStart { s with queue := rest } id).running
      = s.running + 1 := rfl
  refine ⟨⟨?_, ?_, ?_, ?_, ?_, ?_, ?_, ?_⟩, ?_, ?_⟩
  · rw [hrunning]
    show s.running + 1 ≤ s.maxConcurrent
    omega
  · rw [hcnt, hrunning]
    have := h.live_le
    omega
  · intro x hx hxstate
    rcases hmem_new x hx with ⟨hxold, _⟩ | rfl
    · exact h.run_live x hxold hxstate
    · exact ⟨hstart_started, hstart_resolved⟩
  · have hids : (runJobStart { s with queue := rest } id).jobs.map
        (fun j => j.id) = s.jobs.map (fun j => j.id) := by
      rw [hjobs1, hsplit]
      simp [hstart_id]
    rw [hids]
    exact h.ids_nodup
  · intro x hx
    show x.id < s.nextId
    rcases hmem_new x hx with ⟨hxold, _⟩ | rfl
    · exact h.ids_lt x hxold
    · rw [hstart_id]
      exact h.ids_lt jq hjqmem
  · intro id' hid'
    have hid'' : id' ∈ s.queue := by
      rw [hq]
      exact List.mem_cons_of_mem id hid'
    obtain ⟨j', hj'mem, hj'id, hj'state, hj'started⟩ := h.queue_jobs id' hid''
    have hne_id : id' ≠ id := by
      have hnd := h.queue_nodup
      rw [hq, List.nodup_cons] at hnd
      intro hcontra
      exact hnd.1 (hcontra ▸ hid')
    have hne : j' ≠ jq := fun hcontra =>
      hne_id (by rw [← hj'id, hcontra, hjqid])
    exact ⟨j', hmem_of_old j' hj'mem hne, hj'id, hj'state, hj'started⟩
  · have hnd := h.queue_nodup
    rw [hq, List.nodup_cons] at hnd
    exact hnd.2
  · intro x hx hp
    rcases hmem_new x hx with ⟨hxold, _⟩ | rfl
    · exact h.pending_started x hxold hp
    · exact hstart_started
  · intro j hj hjstate
    have hne : j ≠ jq := fun hcontra => hjstate (hcontra ▸ hjqstate)
    exact hmem_of_old j hj hne
  · intro j' hj'
    rcases hmem_new j' hj' with ⟨hold, _⟩ | rfl
    · exact Or.inl hold
    · exact Or.inr hstart_state

/-- Draining preserves the invariant; it leaves every non-queued job in
place, adds only `running`-state versions of jobs, and keeps the cap, the
id supply and the history. -/
theorem drainAux_sim : ∀ (fuel : Nat) (s : JMState), JMInv s →
    JMInv (drainAux fuel s)
    ∧ (∀ j ∈ s.jobs, j.state ≠ .queued → j ∈ (drainAux fuel s).jobs)
    ∧ (∀ j' ∈ (drainAux fuel s).jobs, j' ∈ s.jobs ∨ j'.state = .running)
    ∧ (drainAux fuel s).maxConcurrent = s.maxConcurrent
    ∧ (drainAux fuel s).nextId = s.nextId := by
  intro fuel
  induction fuel with
  | zero =>
    intro s h
    exact ⟨h, fun j hj _ => hj, fun j' hj' => Or.inl hj', rfl, rfl⟩
  | succ fuel ih =>
    intro s h
    by_cases hrun : s.running < s.maxConcurrent
    · cases hq : s.queue with
      | nil =>
        have heq : drainAux (fuel + 1) s = s := by
          show (if s.running < s.maxConcurrent then
            match s.queue with
            | [] => s
            | i :: r => drainAux fuel (runJobStart { s with queue := r } i)
            else s) = s
          rw [if_pos hrun, hq]
        rw [heq]
        exact ⟨h, fun j hj _ => hj, fun j' hj' => Or.inl hj', rfl, rfl⟩
      | cons id rest =>
        have heq : drainAux (fuel + 1) s
            = drainAux fuel (runJobStart { s with queue := rest } id) := by
          show (if s.running < s.maxConcurrent then
            match s.queue with
            | [] => s
            | i :: r => drainAux fuel (runJobStart { s with queue := r } i)
            else s) = _
          rw [if_pos hrun, hq]
        obtain ⟨hinv1, hkeep1, hnew1⟩ := runJobStart_sim h hrun hq
        obtain ⟨hinv2, hkeep2, hnew2, hmax2, hnext2⟩ :=
          ih (runJobStart { s with queue := rest } id) hinv1
        rw [heq]
        refine ⟨hinv2, ?_, ?_, hmax2, hnext2⟩
        · intro j hj hjstate
          exact hkeep2 j (hkeep1 j hj hjstate) hjstate
        · intro j' hj'
          rcases hnew2 j' hj' with h1 | h1
          · exact hnew1 j' h1
          · exact Or.inr h1
    · have heq : drainAux (fuel + 1) s = s := by
        show (if s.running < s.maxConcurrent then
          match s.queue with
          | [] => s
          | i :: r => drainAux fuel (runJobStart { s with queue := r } i)
          else s) = s
        rw [if_neg hrun]
      rw [heq]
      exact ⟨h, fun j hj _ => hj, fun j' hj' => Or.inl hj', rfl, rfl⟩

/-- `resolveJob` keeps the job's id. -/
theorem resolveJob_id (ok : Bool) (msg : String) (j : MJob) :
    (resolveJob ok msg j).id = j.id := by
  by_cases hrun : j.state = JState.running <;> cases ok <;>
    simp [resolveJob, emitJob, hrun]

/-- `resolveJob` keeps the `started` flag. -/
theorem resolveJob_started (ok : Bool) (msg : String) (j : MJob) :
    (resolveJob ok msg j).started = j.started := by
  by_cases hrun : j.state = JState.running <;> cases ok <;>
    simp [resolveJob, emitJob, hrun]

/-- `resolveJob` keeps the pending-timeout-continuation flag. -/
theorem resolveJob_pending (ok : Bool) (msg : String) (j : MJob) :
    (resolveJob ok msg j).timeoutPending = j.timeoutPending := by
  by_cases hrun : j.state = JState.running <;> cases ok <;>
    simp [resolveJob, emitJob, hrun]

/-- `resolveJob` marks the promise resolved. -/
theorem resolveJob_resolved (ok : Bool) (msg : String) (j : MJob) :
    (resolveJob ok msg j).resolved = true := by
  by_cases hrun : j.state = JState.running <;> cases ok <;>
    simp [resolveJob, emitJob, hrun]

/-- `resolveJob` only moves a `running` job, to `done` or `error`. -/
theorem resolveJob_state (ok : Bool) (msg : String) (j : MJob) :
    (resolveJob ok msg j).state
      = if j.state = JState.running then (if ok then .done else .error)
        else j.state := by
  by_cases hrun : j.state = JState.running <;> cases ok <;>
    simp [resolveJob, emitJob, hrun]

/-- A resolved job is never in the `running` state. -/
theorem resolveJob_state_ne_running (ok : Bool) (msg : String) (j : MJob) :
    (resolveJob ok msg j).state ≠ JState.running := by
  rw [resolveJob_state]
  split
  · split <;> simp
  next hrun => simpa using hrun

/-- When the runner settles on a still-running job, the ring ends with the
matching terminal state event. -/
theorem resolveJob_getLast (ok : Bool) (msg : String) (j : MJob)
    (hrun : j.state = JState.running) :
    (resolveJob ok msg j).events.getLast?
      = some (.state (if ok then JState.done else JState.error)
          (if ok then none else some msg)) := by
  cases ok
  · have heq : resolveJob false msg j
        = emitJob { j with resolved := true, state := JState.error, errorCode := some "internal_error" } (.state JState.error (some msg)) := by
      simp [resolveJob, hrun]
    rw [heq, emitJob_getLast]
    simp
  · have heq : resolveJob true msg j
        = emitJob { j with resolved := true, state := JState.done } (.state JState.done none) := by
      simp [resolveJob, hrun]
    rw [heq, emitJob_getLast]
    simp

/-- A terminal state is not `queued`. -/
theorem terminal_ne_queued {st : JState} (h : isTerminal st = true) :
    st ≠ JState.queued := by
  cases st <;> simp_all [isTerminal]

/-- A terminal state is not `running`. -/
theorem terminal_ne_running {st : JState} (h : isTerminal st = true) :
    st ≠ JState.running := by
  cases st <;> simp_all [isTerminal]

/-- A step that changes nothing simulates safely, whatever the allowed
override. -/
theorem jmSim_refl {o : Option Nat} {s : JMState} (h : JMInv s) :
    JMSim o s s :=
  ⟨h, fun j hj _ => ⟨j, hj, rfl, Or.inl rfl⟩,
    fun j' hj' _ => Or.inl ⟨j', hj', rfl, rfl⟩, rfl⟩

/-- A single in-place job update that keeps ids and the runner bookkeeping
preserves the invariant, with the queue replaced by any duplicate-free
selection of old queue entries that avoids the updated id. -/
theorem updateFirst_step_inv {s : JMState} {id : Nat} {f : MJob → MJob}
    {j₀ : MJob} {q' : List Nat} (h : JMInv s)
    (hfind : s.jobs.find? (fun x => x.id = id) = some j₀)
    (hid : ∀ j, (f j).id = j.id)
    (hstarted : ∀ j, (f j).started = j.started)
    (hresolved : ∀ j, (f j).resolved = j.resolved)
    (hrl : (f j₀).state = JState.running →
      (f j₀).started = true ∧ (f j₀).resolved = false)
    (hps : (f j₀).timeoutPending = true → (f j₀).started = true)
    (hq'sub : ∀ a ∈ q', a ∈ s.queue)
    (hq'nd : q'.Nodup)
    (hq'ne : ∀ a ∈ q', a ≠ id) :
    JMInv { s with jobs := updateFirst s.jobs id f, queue := q' } := by
  obtain ⟨pre, post, hsplit, hpre, hj₀id, hupd⟩ := find?_id_decomp hfind
  have hjobs' : updateFirst s.jobs id f = pre ++ f j₀ :: post := hupd f
  have hmem_new : ∀ x ∈ updateFirst s.jobs id f,
      (x ∈ s.jobs ∨ x = f j₀) := by
    intro x hx
    rw [hjobs'] at hx
    rcases List.mem_append.mp hx with h1 | h1
    · exact Or.inl (by rw [hsplit]; exact List.mem_append_left _ h1)
    · rcases List.mem_cons.mp h1 with rfl | h2
      · exact Or.inr rfl
      · exact Or.inl (by
          rw [hsplit]
          exact List.mem_append_right _ (List.mem_cons_of_mem _ h2))
  have hj₀mem : j₀ ∈ s.jobs := by
    rw [hsplit]
    exact List.mem_append_right _ (List.mem_cons_self _ _)
  refine ⟨h.run_le, ?_, ?_, ?_, ?_, ?_, hq'nd, ?_⟩
  · have hinv : cntLive { s with jobs := updateFirst s.jobs id f, queue := q' }
        = cntLive s := by
      show List.countP _ (updateFirst s.jobs id f) = List.countP _ s.jobs
      rw [hjobs', hsplit, List.countP_append, List.countP_append,
        List.countP_cons, List.countP_cons, hstarted, hresolved]
    rw [hinv]
    exact h.live_le
  · intro x hx hxstate
    rcases hmem_new x hx with h1 | rfl
    · exact h.run_live x h1 hxstate
    · exact hrl hxstate
  · have hmap : (updateFirst s.jobs id f).map (fun j => j.id)
        = s.jobs.map (fun j => j.id) := by
      rw [hjobs', hsplit]
      simp [hid]
    show (List.map _ (updateFirst s.jobs id f)).Nodup
    rw [hmap]
    exact h.ids_nodup
  · intro x hx
    show x.id < s.nextId
    rcases hmem_new x hx with h1 | rfl
    · exact h.ids_lt x h1
    · rw [hid]
      exact h.ids_lt j₀ hj₀mem
  · intro id' hid'
    obtain ⟨j', hj'mem, hj'id, hj'state, hj'started⟩ :=
      h.queue_jobs id' (hq'sub id' hid')
    have hne : j' ≠ j₀ := by
      intro hcontra
      exact hq'ne id' hid' (by rw [← hj'id, hcontra, hj₀id])
    refine ⟨j', ?_, hj'id, hj'state, hj'started⟩
    rw [hjobs']
    rw [hsplit] at hj'mem
    rcases List.mem_append.mp hj'mem with h1 | h1
    · exact List.mem_append_left _ h1
    · rcases List.mem_cons.mp h1 with rfl | h2
      · exact absurd rfl hne
      · exact List.mem_append_right _ (List.mem_cons_of_mem _ h2)
  · intro x hx hp
    rcases hmem_new x hx with h1 | rfl
    · exact h.pending_started x h1 hp
    · exact hps hp

/-- In a state satisfying the invariant, no queue entry can carry the id
of a job that is started or not queued. -/
theorem queue_ne_of_found {s : JMState} {id : Nat} {j₀ : MJob}
    (h : JMInv s)
    (hfind : s.jobs.find? (fun x => x.id = id) = some j₀)
    (hsep : j₀.state ≠ JState.queued ∨ j₀.started = true) :
    ∀ a ∈ s.queue, a ≠ id := by
  intro a ha hcontra
  subst hcontra
  obtain ⟨j', hj'mem, hj'id, hj'state, hj'started⟩ := h.queue_jobs a ha
  have hj₀mem : j₀ ∈ s.jobs := List.mem_of_find?_eq_some hfind
  have hj₀id : j₀.id = a := by
    obtain ⟨pre, post, _, _, hj₀id, _⟩ := find?_id_decomp hfind
    exact hj₀id
  have : j' = j₀ :=
    eq_of_mem_of_id_eq h.ids_nodup hj'mem hj₀mem (hj'id.trans hj₀id.symm)
  rcases hsep with hs | hs
  · exact hs (this ▸ hj'state)
  · rw [← this, hj'started] at hs
    cases hs

/-- Splitting an in-place update: untouched jobs stay, the image is a
member, and every member is old or the image of the found job. -/
theorem updateFirst_step_rel {s : JMState} {id : Nat} {j₀ : MJob}
    (hfind : s.jobs.find? (fun x => x.id = id) = some j₀)
    (f : MJob → MJob) :
    (∀ j ∈ s.jobs, j ≠ j₀ → j ∈ updateFirst s.jobs id f)
    ∧ f j₀ ∈ updateFirst s.jobs id f
    ∧ (∀ x ∈ updateFirst s.jobs id f, x ∈ s.jobs ∨ x = f j₀) := by
  obtain ⟨pre, post, hsplit, hpre, hj₀id, hupd⟩ := find?_id_decomp hfind
  have hjobs' : updateFirst s.jobs id f = pre ++ f j₀ :: post := hupd f
  refine ⟨?_, ?_, ?_⟩
  · intro j hj hne
    rw [hjobs']
    rw [hsplit] at hj
    rcases List.mem_append.mp hj with h1 | h1
    · exact List.mem_append_left _ h1
    · rcases List.mem_cons.mp h1 with rfl | h2
      · exact absurd rfl hne
      · exact List.mem_append_right _ (List.mem_cons_of_mem _ h2)
  · rw [hjobs']
    exact List.mem_append_right _ (List.mem_cons_self _ _)
  · intro x hx
    rw [hjobs'] at hx
    rcases List.mem_append.mp hx with h1 | h1
    · exact Or.inl (by rw [hsplit]; exact List.mem_append_left _ h1)
    · rcases List.mem_cons.mp h1 with rfl | h2
      · exact Or.inr rfl
      · exact Or.inl (by
          rw [hsplit]
          exact List.mem_append_right _ (List.mem_cons_of_mem _ h2))

/-- Cancelling simulates safely: a queued job is dequeued and cancelled
with its state event, a running job is cancelled with its state event, and
nothing else changes. -/
theorem cancel_sim {o : Option Nat} (s : JMState) (id : Nat) (h : JMInv s) :
    JMSim o s (cancelStep s id) := by
  by_cases hqmem : id ∈ s.queue
  · obtain ⟨jq, hjqmem, hjqid, hjqstate, hjqstarted⟩ := h.queue_jobs id hqmem
    have hfind := find?_id_of_mem_nodup h.ids_nodup hjqmem hjqid
    obtain ⟨hrel1, hrel2, hrel3⟩ := updateFirst_step_rel hfind
      (fun j => emitJob { j with state := .cancelled } (.state .cancelled none))
    unfold cancelStep
    rw [if_pos hqmem]
    refine ⟨?_, ?_, ?_, rfl⟩
    · exact updateFirst_step_inv h hfind (fun j => rfl) (fun j => rfl)
        (fun j => rfl)
        (fun hc => by rw [(emitJob_fields _ _).2.1] at hc; simp at hc)
        (fun hp => h.pending_started jq hjqmem hp)
        (fun a ha => List.mem_of_mem_erase ha)
        (h.queue_nodup.erase id)
        (fun a ha => ((List.Nodup.mem_erase_iff h.queue_nodup).mp ha).1)
    · intro j hj hterm
      have hne : j ≠ jq := fun hc => terminal_ne_queued hterm (hc ▸ hjqstate)
      exact ⟨j, hrel1 j hj hne, rfl, Or.inl rfl⟩
    · intro x hx hterm
      rcases hrel3 x hx with hold | rfl
      · exact Or.inl ⟨x, hold, rfl, rfl⟩
      · exact Or.inr ⟨none, emitJob_getLast _ _⟩
  · cases hf : s.jobs.find? (fun x => x.id = id) with
    | none =>
      unfold cancelStep
      rw [if_neg hqmem]
      simp only [hf]
      exact jmSim_refl h
    | some j₀ =>
      by_cases hrun : j₀.state = JState.running
      · obtain ⟨hrel1, hrel2, hrel3⟩ := updateFirst_step_rel hf
          (fun j => emitJob { j with cancelRequested := true, state := .cancelled }
            (.state .cancelled none))
        unfold cancelStep
        rw [if_neg hqmem]
        simp only [hf, hrun, if_true]
        refine ⟨?_, ?_, ?_, rfl⟩
        · exact updateFirst_step_inv h hf (fun j => rfl) (fun j => rfl)
            (fun j => rfl)
            (fun hc => by rw [(emitJob_fields _ _).2.1] at hc; simp at hc)
            (fun hp => h.pending_started j₀ (List.mem_of_find?_eq_some hf) hp)
            (fun a ha => ha) h.queue_nodup
            (queue_ne_of_found h hf (Or.inl (by rw [hrun]; intro hc; cases hc)))
        · intro j hj hterm
          have hne : j ≠ j₀ := fun hc => terminal_ne_running hterm (hc ▸ hrun)
          exact ⟨j, hrel1 j hj hne, rfl, Or.inl rfl⟩
        · intro x hx hterm
          rcases hrel3 x hx with hold | rfl
          · exact Or.inl ⟨x, hold, rfl, rfl⟩
          · exact Or.inr ⟨none, emitJob_getLast _ _⟩
      · unfold cancelStep
        rw [if_neg hqmem]
        simp only [hf]
        rw [if_neg hrun]
        exact jmSim_refl h

/-- The synchronous part of the timeout callback simulates safely: it only
marks a still-running job (timeout error code, cancel request, outstanding
continuation) and changes no job's state. -/
theorem timeoutFire_sim {o : Option Nat} (s : JMState) (id : Nat)
    (h : JMInv s) : JMSim o s (timeoutFireStep s id) := by
  cases hf : s.jobs.find? (fun x => x.id = id) with
  | none =>
    unfold timeoutFireStep
    simp only [hf]
    exact jmSim_refl h
  | some j₀ =>
    by_cases hrun : j₀.state = JState.running
    · obtain ⟨hrel1, hrel2, hrel3⟩ := updateFirst_step_rel hf
        (fun j => { j with errorCode := some "timeout", cancelRequested := true, timeoutPending := true })
      unfold timeoutFireStep
      simp only [hf, hrun, if_true]
      refine ⟨?_, ?_, ?_, rfl⟩
      · exact updateFirst_step_inv h hf (fun j => rfl) (fun j => rfl)
          (fun j => rfl)
          (fun _ => h.run_live j₀ (List.mem_of_find?_eq_some hf) hrun)
          (fun _ => (h.run_live j₀ (List.mem_of_find?_eq_some hf) hrun).1)
          (fun a ha => ha) h.queue_nodup
          (queue_ne_of_found h hf (Or.inl (by rw [hrun]; intro hc; cases hc)))
      · intro j hj hterm
        have hne : j ≠ j₀ := fun hc => terminal_ne_running hterm (hc ▸ hrun)
        exact ⟨j, hrel1 j hj hne, rfl, Or.inl rfl⟩
      · intro x hx hterm
        rcases hrel3 x hx with hold | rfl
        · exact Or.inl ⟨x, hold, rfl, rfl⟩
        · have hx2 : ({ j₀ with errorCode := some "timeout", cancelRequested := true, timeoutPending := true } : MJob).state = JState.running := hrun
          exact absurd hx2 (terminal_ne_running hterm)
    · unfold timeoutFireStep
      simp only [hf]
      rw [if_neg hrun]
      exact jmSim_refl h

/-- The timeout continuation simulates up to its own override: it moves
the pending job — whatever its state, terminal included — to `error` and
emits the matching `error` state event last; every other job is
untouched. -/
theorem timeoutResume_sim (s : JMState) (id : Nat) (h : JMInv s) :
    JMSim (some id) s (timeoutResumeStep s id) := by
  cases hf : s.jobs.find? (fun x => x.id = id) with
  | none =>
    unfold timeoutResumeStep
    simp only [hf]
    exact jmSim_refl h
  | some j₀ =>
    by_cases hp : j₀.timeoutPending = true
    · have hj₀mem : j₀ ∈ s.jobs := List.mem_of_find?_eq_some hf
      have hst : j₀.started = true := h.pending_started j₀ hj₀mem hp
      have hj₀id : j₀.id = id := by
        obtain ⟨_, _, _, _, hid, _⟩ := find?_id_decomp hf
        exact hid
      obtain ⟨hrel1, hrel2, hrel3⟩ := updateFirst_step_rel hf
        (fun j => emitJob { j with timeoutPending := false, state := .error }
          (.state .error (some "Timed out")))
      unfold timeoutResumeStep
      simp only [hf, hp, if_true]
      refine ⟨?_, ?_, ?_, rfl⟩
      · exact updateFirst_step_inv h hf (fun j => rfl) (fun j => rfl)
          (fun j => rfl)
          (fun hc => by rw [(emitJob_fields _ _).2.1] at hc; simp at hc)
          (fun hc => by simp [emitJob] at hc)
          (fun a ha => ha) h.queue_nodup
          (queue_ne_of_found h hf (Or.inr hst))
      · intro j hj hterm
        by_cases hje : j = j₀
        · subst hje
          exact ⟨emitJob { j with timeoutPending := false, state := .error }
              (.state .error (some "Timed out")), hrel2, rfl,
            Or.inr ⟨by rw [hj₀id], rfl, emitJob_getLast _ _⟩⟩
        · exact ⟨j, hrel1 j hj hje, rfl, Or.inl rfl⟩
      · intro x hx hterm
        rcases hrel3 x hx with hold | rfl
        · exact Or.inl ⟨x, hold, rfl, rfl⟩
        · exact Or.inr ⟨some "Timed out", emitJob_getLast _ _⟩
    · unfold timeoutResumeStep
      simp only [hf]
      rw [if_neg hp]
      exact jmSim_refl h

/-- A live runner appending a log line simulates safely: only the found
job's ring grows. -/
theorem runnerLog_sim {o : Option Nat} (s : JMState) (id : Nat)
    (stream line : String) (h : JMInv s) :
    JMSim o s (runnerLogStep s id stream line) := by
  cases hf : s.jobs.find? (fun x => x.id = id) with
  | none =>
    unfold runnerLogStep
    simp only [hf]
    exact jmSim_refl h
  | some j₀ =>
    cases hg : j₀.started && !j₀.resolved with
    | false =>
      unfold runnerLogStep
      simp only [hf, hg]
      exact jmSim_refl h
    | true =>
      have hst : j₀.started = true := by
        have hx := hg
        simp at hx
        exact hx.1
      obtain ⟨hrel1, hrel2, hrel3⟩ := updateFirst_step_rel hf
        (fun j => emitJob j (.log stream line))
      unfold runnerLogStep
      simp only [hf, hg, if_true]
      refine ⟨?_, ?_, ?_, rfl⟩
      · refine updateFirst_step_inv h hf (fun j => rfl) (fun j => rfl)
          (fun j => rfl) ?_
          (fun hp => h.pending_started j₀ (List.mem_of_find?_eq_some hf) hp)
          (fun a ha => ha) h.queue_nodup
          (queue_ne_of_found h hf (Or.inr hst))
        intro hc
        rw [(emitJob_fields _ _).2.1] at hc
        have := h.run_live j₀ (List.mem_of_find?_eq_some hf) hc
        exact ⟨this.1, this.2⟩
      · intro j hj hterm
        by_cases hje : j = j₀
        · subst hje
          exact ⟨emitJob j (.log stream line), hrel2, rfl, Or.inl rfl⟩
        · exact ⟨j, hrel1 j hj hje, rfl, Or.inl rfl⟩
      · intro x hx hterm
        rcases hrel3 x hx with hold | rfl
        · exact Or.inl ⟨x, hold, rfl, rfl⟩
        · exact Or.inl ⟨j₀, List.mem_of_find?_eq_some hf, rfl, rfl⟩

/-- A live runner appending a progress event simulates safely. -/
theorem runnerProgress_sim {o : Option Nat} (s : JMState) (id : Nat)
    (detail : String) (h : JMInv s) :
    JMSim o s (runnerProgressStep s id detail) := by
  cases hf : s.jobs.find? (fun x => x.id = id) with
  | none =>
    unfold runnerProgressStep
    simp only [hf]
    exact jmSim_refl h
  | some j₀ =>
    cases hg : j₀.started && !j₀.resolved with
    | false =>
      unfold runnerProgressStep
      simp only [hf, hg]
      exact jmSim_refl h
    | true =>
      have hst : j₀.started = true := by
        have hx := hg
        simp at hx
        exact hx.1
      obtain ⟨hrel1, hrel2, hrel3⟩ := updateFirst_step_rel hf
        (fun j => emitJob j (.progress detail))
      unfold runnerProgressStep
      simp only [hf, hg, if_true]
      refine ⟨?_, ?_, ?_, rfl⟩
      · refine updateFirst_step_inv h hf (fun j => rfl) (fun j => rfl)
          (fun j => rfl) ?_
          (fun hp => h.pending_started j₀ (List.mem_of_find?_eq_some hf) hp)
          (fun a ha => ha) h.queue_nodup
          (queue_ne_of_found h hf (Or.inr hst))
        intro hc
        rw [(emitJob_fields _ _).2.1] at hc
        have := h.run_live j₀ (List.mem_of_find?_eq_some hf) hc
        exact ⟨this.1, this.2⟩
      · intro j hj hterm
        by_cases hje : j = j₀
        · subst hje
          exact ⟨emitJob j (.progress detail), hrel2, rfl, Or.inl rfl⟩
        · exact ⟨j, hrel1 j hj hje, rfl, Or.inl rfl⟩
      · intro x hx hterm
        rcases hrel3 x hx with hold | rfl
        · exact Or.inl ⟨x, hold, rfl, rfl⟩
        · exact Or.inl ⟨j₀, List.mem_of_find?_eq_some hf, rfl, rfl⟩

/-- A settling runner simulates safely: it resolves the found live job,
emits the terminal state event if the job was still running, frees the
slot and drains. -/
theorem resolve_sim {o : Option Nat} (s : JMState) (id : Nat) (ok : Bool)
    (msg : String) (h : JMInv s) : JMSim o s (resolveStep s id ok msg) := by
  cases hf : s.jobs.find? (fun x => x.id = id) with
  | none =>
    unfold resolveStep
    simp only [hf]
    exact jmSim_refl h
  | some j₀ =>
    cases hg : j₀.started && !j₀.resolved with
    | false =>
      unfold resolveStep
      simp only [hf, hg]
      exact jmSim_refl h
    | true =>
      have hst : j₀.started = true := by
        have hx := hg
        simp at hx
        exact hx.1
      have hrs : j₀.resolved = false := by
        have hx := hg
        simp at hx
        exact hx.2
      obtain ⟨pre, post, hsplit, hpre, hj₀id, hupd⟩ := find?_id_decomp hf
      have hjobs' : updateFirst s.jobs id (resolveJob ok msg)
          = pre ++ resolveJob ok msg j₀ :: post := hupd (resolveJob ok msg)
      obtain ⟨hrel1, hrel2, hrel3⟩ := updateFirst_step_rel hf (resolveJob ok msg)
      have hpj₀ : (j₀.started && !j₀.resolved) = true := hg
      have hpr : ((resolveJob ok msg j₀).started
          && !(resolveJob ok msg j₀).resolved) = false := by
        rw [resolveJob_resolved]
        simp
      have hcnt_old : cntLive s
          = (List.countP (fun j => j.started && !j.resolved) pre
            + List.countP (fun j => j.started && !j.resolved) post) + 1 := by
        show List.countP _ s.jobs = _
        rw [hsplit, List.countP_append, List.countP_cons, hpj₀]
        simp
        omega
      have hinv_m : JMInv { s with
          jobs := updateFirst s.jobs id (resolveJob ok msg)
          running := s.running - 1 } := by
        have hmem_new : ∀ x ∈ updateFirst s.jobs id (resolveJob ok msg),
            (x ∈ s.jobs ∨ x = resolveJob ok msg j₀) := hrel3
        have hj₀mem : j₀ ∈ s.jobs := List.mem_of_find?_eq_some hf
        have hlive_pos : 1 ≤ cntLive s := by omega
        refine ⟨?_, ?_, ?_, ?_, ?_, ?_, h.queue_nodup, ?_⟩
        · show s.running - 1 ≤ s.maxConcurrent
          have := h.run_le
          omega
        · have hcnt_new : cntLive { s with
              jobs := updateFirst s.jobs id (resolveJob ok msg)
              running := s.running - 1 } = cntLive s - 1 := by
            show List.countP _ (updateFirst s.jobs id (resolveJob ok msg)) = _
            rw [hjobs', List.countP_append, List.countP_cons, hpr, hcnt_old]
            simp
          rw [hcnt_new]
          show cntLive s - 1 ≤ s.running - 1
          have := h.live_le
          omega
        · intro x hx hxstate
          rcases hmem_new x hx with h1 | rfl
          · exact h.run_live x h1 hxstate
          · exact absurd hxstate (resolveJob_state_ne_running ok msg j₀)
        · have hmap : (updateFirst s.jobs id (resolveJob ok msg)).map
              (fun j => j.id) = s.jobs.map (fun j => j.id) := by
            rw [hjobs', hsplit]
            simp [resolveJob_id]
          show (List.map _ (updateFirst s.jobs id (resolveJob ok msg))).Nodup
          rw [hmap]
          exact h.ids_nodup
        · intro x hx
          show x.id < s.nextId
          rcases hmem_new x hx with h1 | rfl
          · exact h.ids_lt x h1
          · rw [resolveJob_id]
            exact h.ids_lt j₀ hj₀mem
        · intro id' hid'
          obtain ⟨j', hj'mem, hj'id, hj'state, hj'started⟩ :=
            h.queue_jobs id' hid'
          have hne : j' ≠ j₀ := by
            intro hc
            exact queue_ne_of_found h hf (Or.inr hst) id' hid'
              (by rw [← hj'id, hc, hj₀id])
          exact ⟨j', hrel1 j' hj'mem hne, hj'id, hj'state, hj'started⟩
        · intro x hx hp
          rcases hrel3 x hx with h1 | rfl
          · exact h.pending_started x h1 hp
          · rw [resolveJob_started]
            rw [resolveJob_pending] at hp
            exact h.pending_started j₀ hj₀mem hp
      obtain ⟨hinv2, hkeep2, hnew2, hmax2, _⟩ :=
        drainAux_sim ({ s with
          jobs := updateFirst s.jobs id (resolveJob ok msg)
          running := s.running - 1 }.queue.length) _ hinv_m
      unfold resolveStep
      simp only [hf, hg, if_true]
      refine ⟨hinv2, ?_, ?_, hmax2⟩
      · intro j hj hterm
        by_cases hje : j = j₀
        · subst hje
          have hstate_eq : (resolveJob ok msg j).state = j.state := by
            rw [resolveJob_state, if_neg]
            simpa using terminal_ne_running hterm
          have hmem_m : resolveJob ok msg j ∈ updateFirst s.jobs id
              (resolveJob ok msg) := hrel2
          have hkept := hkeep2 (resolveJob ok msg j) hmem_m
            (by rw [hstate_eq]; exact terminal_ne_queued hterm)
          exact ⟨resolveJob ok msg j, hkept, resolveJob_id ok msg j,
            Or.inl hstate_eq⟩
        · have hkept := hkeep2 j (hrel1 j hj hje) (terminal_ne_queued hterm)
          exact ⟨j, hkept, rfl, Or.inl rfl⟩
      · intro x hx hterm
        rcases hnew2 x hx with h1 | h1
        · rcases hrel3 x h1 with hold | rfl
          · exact Or.inl ⟨x, hold, rfl, rfl⟩
          · by_cases hr : j₀.state = JState.running
            · refine Or.inr ⟨if ok then none else some msg, ?_⟩
              rw [resolveJob_getLast ok msg j₀ hr, resolveJob_state]
              cases ok <;> simp [hr]
            · refine Or.inl ⟨j₀, List.mem_of_find?_eq_some hf,
                (resolveJob_id ok msg j₀).symm, ?_⟩
              rw [resolveJob_state, if_neg hr]
        · exact absurd h1 (terminal_ne_running hterm)

/-- Enqueueing simulates safely: the fresh job is registered queued, the
queue grows at the back, and draining starts jobs only from the front of
the queue. -/
theorem enqueue_sim {o : Option Nat} (s : JMState) (h : JMInv s) :
    JMSim o s (enqueueStep s) := by
  have hinv0 : JMInv { s with
      jobs := s.jobs ++ [⟨s.nextId, .queued, false, false, false, false, [], none⟩]
      queue := s.queue ++ [s.nextId]
      history := trackJob s.history s.nextId
      nextId := s.nextId + 1 } := by
    refine ⟨h.run_le, ?_, ?_, ?_, ?_, ?_, ?_, ?_⟩
    · have heq : cntLive { s with
          jobs := s.jobs ++ [⟨s.nextId, .queued, false, false, false, false, [], none⟩]
          queue := s.queue ++ [s.nextId]
          history := trackJob s.history s.nextId
          nextId := s.nextId + 1 } = cntLive s := by
        show List.countP _ (s.jobs ++ [_]) = List.countP _ s.jobs
        rw [List.countP_append]
        simp
      rw [heq]
      exact h.live_le
    · intro x hx hxstate
      rcases List.mem_append.mp hx with h1 | h1
      · exact h.run_live x h1 hxstate
      · rcases List.mem_cons.mp h1 with rfl | h2
        · cases hxstate
        · cases h2
    · show (List.map _ (s.jobs ++ [_])).Nodup
      rw [List.map_append]
      refine List.Nodup.append h.ids_nodup (List.nodup_singleton _) ?_
      intro a ha hb
      rcases List.mem_singleton.mp hb with rfl
      obtain ⟨j, hj, hjid⟩ := List.mem_map.mp ha
      exact absurd hjid (Nat.ne_of_lt (h.ids_lt j hj))
    · intro x hx
      show x.id < s.nextId + 1
      rcases List.mem_append.mp hx with h1 | h1
      · have := h.ids_lt x h1
        omega
      · rcases List.mem_cons.mp h1 with rfl | h2
        · show s.nextId < s.nextId + 1
          omega
        · cases h2
    · intro id' hid'
      rcases List.mem_append.mp hid' with h1 | h1
      · obtain ⟨j, hj, hjid, hjstate, hjstarted⟩ := h.queue_jobs id' h1
        exact ⟨j, List.mem_append_left _ hj, hjid, hjstate, hjstarted⟩
      · rcases List.mem_singleton.mp h1 with rfl
        exact ⟨⟨s.nextId, .queued, false, false, false, false, [], none⟩,
          List.mem_append_right _ (List.mem_singleton.mpr rfl), rfl, rfl, rfl⟩
    · refine List.Nodup.append h.queue_nodup (List.nodup_singleton _) ?_
      intro a ha hb
      have hab : a = s.nextId := List.mem_singleton.mp hb
      obtain ⟨j, hj, hjid, _, _⟩ := h.queue_jobs a ha
      rw [hab] at hjid
      exact absurd (hjid ▸ h.ids_lt j hj) (by omega)
    · intro x hx hp
      rcases List.mem_append.mp hx with h1 | h1
      · exact h.pending_started x h1 hp
      · rcases List.mem_cons.mp h1 with rfl | h2
        · cases hp
        · cases h2
  obtain ⟨hinv2, hkeep2, hnew2, hmax2, _⟩ :=
    drainAux_sim (({ s with
      jobs := s.jobs ++ [⟨s.nextId, .queued, false, false, false, false, [], none⟩]
      queue := s.queue ++ [s.nextId]
      history := trackJob s.history s.nextId
      nextId := s.nextId + 1 } : JMState).queue.length) _ hinv0
  refine ⟨hinv2, ?_, ?_, hmax2⟩
  · intro j hj hterm
    have hkept := hkeep2 j (List.mem_append_left _ hj)
      (terminal_ne_queued hterm)
    exact ⟨j, hkept, rfl, Or.inl rfl⟩
  · intro x hx hterm
    rcases hnew2 x hx with h1 | h1
    · rcases List.mem_append.mp h1 with h2 | h2
      · exact Or.inl ⟨x, h2, rfl, rfl⟩
      · rcases List.mem_singleton.mp h2 with rfl
        cases hterm
    · exact absurd h1 (terminal_ne_running hterm)

/-- Every single manager step simulates safely, up to the timeout
continuation's own override. -/
theorem jmStep_sim (s : JMState) (e : JMEv) (h : JMInv s) :
    JMSim (overrideOf e) s (jmStep s e) := by
  cases e with
  | enqueue => exact enqueue_sim s h
  | cancel id => exact cancel_sim s id h
  | timeoutFire id => exact timeoutFire_sim s id h
  | timeoutResume id => exact timeoutResume_sim s id h
  | resolve id ok msg => exact resolve_sim s id ok msg h
  | runnerLog id stream line => exact runnerLog_sim s id stream line h
  | runnerProgress id detail => exact runnerProgress_sim s id detail h

/-- The fresh manager satisfies the invariant. -/
theorem initJM_inv (maxConcurrent : Nat) : JMInv (initJM maxConcurrent) := by
  refine ⟨?_, ?_, ?_, ?_, ?_, ?_, ?_, ?_⟩ <;> simp [initJM, cntLive]

/-- Running any event sequence preserves the invariant. -/
theorem jmRun_inv (s : JMState) (evs : List JMEv) (h : JMInv s) :
    JMInv (jmRun s evs) := by
  induction evs generalizing s with
  | nil => exact h
  | cons e evs ih => exact ih (jmStep s e) (jmStep_sim s e h).1

/-- Running any event sequence keeps the concurrency cap. -/
theorem jmRun_max (s : JMState) (evs : List JMEv) (h : JMInv s) :
    (jmRun s evs).maxConcurrent = s.maxConcurrent := by
  induction evs generalizing s with
  | nil => rfl
  | cons e evs ih =>
    have hsim := jmStep_sim s e h
    calc (jmRun (jmStep s e) evs).maxConcurrent
        = (jmStep s e).maxConcurrent := ih (jmStep s e) hsim.1
      _ = s.maxConcurrent := hsim.2.2.2

/-- How one drain pass transforms the queue and the counter: it pops
exactly `min (maxConcurrent - running) (queue length)` entries off the
front of the queue, incrementing `running` once per popped entry. -/
theorem drainAux_queue_running : ∀ (fuel : Nat) (s : JMState),
    fuel = s.queue.length →
    (drainAux fuel s).queue
        = s.queue.drop (min (s.maxConcurrent - s.running) s.queue.length)
    ∧ (drainAux fuel s).running
        = s.running + min (s.maxConcurrent - s.running) s.queue.length := by
  intro fuel
  induction fuel with
  | zero =>
    intro s hlen
    have hq : s.queue = [] := List.length_eq_zero.mp hlen.symm
    constructor
    · show s.queue = _
      rw [hq]
      simp
    · show s.running = _
      rw [hq]
      simp
  | succ fuel ih =>
    intro s hlen
    cases hq : s.queue with
    | nil => rw [hq] at hlen; cases hlen
    | cons id rest =>
      by_cases hrun : s.running < s.maxConcurrent
      · have heq : drainAux (fuel + 1) s
            = drainAux fuel (runJobStart { s with queue := rest } id) := by
          show (if s.running < s.maxConcurrent then
            match s.queue with
            | [] => s
            | i :: r => drainAux fuel (runJobStart { s with queue := r } i)
            else s) = _
          rw [if_pos hrun, hq]
        have hlen' : fuel = rest.length := by
          rw [hq] at hlen
          simpa using hlen
        obtain ⟨ihq, ihr⟩ := ih (runJobStart { s with queue := rest } id) hlen'
        have hmin : min (s.maxConcurrent - s.running) (rest.length + 1)
            = min (s.maxConcurrent - (s.running + 1)) rest.length + 1 := by
          omega
        constructor
        · rw [heq]
          show _ = (id :: rest).drop
            (min (s.maxConcurrent - s.running) (rest.length + 1))
          rw [hmin, List.drop_succ_cons]
          exact ihq
        · rw [heq]
          show _ = s.running
            + min (s.maxConcurrent - s.running) (rest.length + 1)
          rw [hmin, ihr]
          show s.running + 1
              + min (s.maxConcurrent - (s.running + 1)) rest.length = _
          omega
      · have heq : drainAux (fuel + 1) s = s := by
          show (if s.running < s.maxConcurrent then
            match s.queue with
            | [] => s
            | i :: r => drainAux fuel (runJobStart { s with queue := r } i)
            else s) = s
          rw [if_neg hrun]
        have ha : s.maxConcurrent - s.running = 0 := by omega
        rw [heq, ha]
        constructor
        · show s.queue = _
          rw [hq]
          simp
        · simp

/-! ## C5: the concurrency cap and FIFO draining -/

/-- C5: at every instant of every execution of the job manager, the number
of jobs in the `running` state is at most `maxConcurrent`; and one drain
pass pops exactly as many jobs as there are free slots off the front of
the queue — the rest stay queued in order, so queued jobs start in FIFO
order as slots free up. -/
theorem C5_concurrency_cap :
    (∀ (maxConcurrent : Nat) (evs : List JMEv),
      cntRunning (jmRun (initJM maxConcurrent) evs) ≤ maxConcurrent)
    ∧ (∀ s : JMState,
        (drain s).queue
            = s.queue.drop (min (s.maxConcurrent - s.running) s.queue.length)
          ∧ (drain s).running
            = s.running + min (s.maxConcurrent - s.running) s.queue.length) := by
  constructor
  · intro m evs
    have hinv := jmRun_inv (initJM m) evs (initJM_inv m)
    have hmax := jmRun_max (initJM m) evs (initJM_inv m)
    have h1 : cntRunning (jmRun (initJM m) evs)
        ≤ cntLive (jmRun (initJM m) evs) := by
      apply List.countP_mono_left
      intro j hj hp
      have hrl := hinv.run_live j hj (by simpa using hp)
      simp [hrl.1, hrl.2]
    have h2 := hinv.live_le
    have h3 := hinv.run_le
    have h4 : (initJM m).maxConcurrent = m := rfl
    omega
  · intro s
    exact drainAux_queue_running s.queue.length s rfl

/-! ## C6: terminal states and the order invariant -/

/-- C6 counterexample: (a) a runner that is still flushing output after
its job was cancelled appends a `log` event after the terminal `state`
event, so the last event of a terminal job need not be a matching state
event; (b) the timeout callback re-checks nothing after
`await job.cancel()`, so when the runner settles `done` during that await,
the continuation overwrites the terminal state with `error` — the same job
passes through two distinct terminal states. -/
theorem C6_terminal_events_cex :
    (∃ j ∈ (jmRun (initJM 1)
        [.enqueue, .cancel 0, .runnerLog 0 "stdout" "late"]).jobs,
      isTerminal j.state = true ∧ lastIsMatchingStateEvent j = false)
    ∧ (∃ j ∈ (jmRun (initJM 1)
        [.enqueue, .timeoutFire 0, .resolve 0 true ""]).jobs,
      isTerminal j.state = true
      ∧ ∃ j' ∈ (jmRun (initJM 1)
          [.enqueue, .timeoutFire 0, .resolve 0 true "",
            .timeoutResume 0]).jobs,
        j'.id = j.id ∧ isTerminal j'.state = true ∧ j'.state ≠ j.state) :=
  ⟨⟨⟨0, .cancelled, true, true, false, false,
      [.state .running none, .state .cancelled none, .log "stdout" "late"],
      none⟩,
    by decide, by decide, by decide⟩,
   ⟨⟨0, .done, true, true, true, true,
      [.state .running none, .state .done none], some "timeout"⟩,
    by decide, by decide,
    ⟨⟨0, .error, true, true, true, false,
        [.state .running none, .state .done none,
          .state .error (some "Timed out")], some "timeout"⟩,
      by decide, by decide, by decide, by decide⟩⟩⟩

/-- C6 (amended): a terminal job's state survives every later step — in
particular the runner's eventual resolution and cancellation — except the
resumption of a timeout continuation for that very job, which overwrites
it with `error` while emitting the matching `error` state event; and
whenever a step leaves a job in a terminal state it did not already hold,
the event appended last on its ring is a `state` event carrying that
terminal state.  (Log or progress events from the still-live runner may
still be appended after it.) -/
theorem C6_terminal_states (maxConcurrent : Nat) (evs : List JMEv)
    (e : JMEv) :
    (∀ j ∈ (jmRun (initJM maxConcurrent) evs).jobs,
        isTerminal j.state = true →
        ∀ j' ∈ (jmStep (jmRun (initJM maxConcurrent) evs) e).jobs,
          j'.id = j.id →
          j'.state = j.state
          ∨ (e = JMEv.timeoutResume j.id ∧ j'.state = JState.error
              ∧ j'.events.getLast? =
                  some (.state JState.error (some "Timed out"))))
    ∧ (∀ j' ∈ (jmStep (jmRun (initJM maxConcurrent) evs) e).jobs,
        isTerminal j'.state = true →
        (∀ j ∈ (jmRun (initJM maxConcurrent) evs).jobs,
          j.id = j'.id → j.state ≠ j'.state) →
        ∃ msg, j'.events.getLast? = some (.state j'.state msg)) := by
  have hinv := jmRun_inv (initJM maxConcurrent) evs (initJM_inv maxConcurrent)
  have hsim := jmStep_sim (jmRun (initJM maxConcurrent) evs) e hinv
  constructor
  · intro j hj hterm j' hj' hid
    obtain ⟨j'', hj''mem, hj''id, hj''state⟩ := hsim.2.1 j hj hterm
    have heq : j' = j'' :=
      eq_of_mem_of_id_eq hsim.1.ids_nodup hj' hj''mem (hid.trans hj''id.symm)
    subst heq
    rcases hj''state with hstate | ⟨hov, herr, hlast⟩
    · exact Or.inl hstate
    · refine Or.inr ⟨?_, herr, hlast⟩
      cases e with
      | enqueue => simp [overrideOf] at hov
      | cancel tid => simp [overrideOf] at hov
      | timeoutFire tid => simp [overrideOf] at hov
      | timeoutResume tid =>
        have htid : tid = j.id := by simpa [overrideOf] using hov
        rw [htid]
      | resolve tid ok msg => simp [overrideOf] at hov
      | runnerLog tid stream line => simp [overrideOf] at hov
      | runnerProgress tid detail => simp [overrideOf] at hov
  · intro j' hj' hterm hchange
    rcases hsim.2.2.1 j' hj' hterm with ⟨j, hj, hjid, hjstate⟩ | hr
    · exact absurd hjstate (hchange j hj hjid)
    · exact hr

end GitDaemon
